import Mathlib

set_option maxHeartbeats 1000000

namespace Pictaflux

/-!
Shallow embedding of the Pictaflux brush pipeline: the big-endian byte
reader, the run-length pixel decoder, the descriptor parser, the ABR
container parser and the stroke engine, translated from the TypeScript
source.  Byte buffers are lists of naturals below 256; machine floats are
idealised as rationals (for decoded data) and reals (for the stroke
engine and dynamics arithmetic).
-/

/-! ## Byte reader (class AbrReader in the source)

The cursor is rational because the source's skip method can receive a
fractional byte count (the unsupported-depth branch of readRawPixels
passes count times depth over eight).  A JS DataView access truncates a
fractional index, which toIdx reproduces.  Out-of-bounds reads, which
throw a RangeError in the source, return the padding byte 0 here; every
theorem below only ever reads inside the buffer. -/

structure AbrReader where
  data : List ℕ
  off : ℚ
deriving DecidableEq

def toIdx (q : ℚ) : ℕ := (⌊q⌋).toNat

def AbrReader.remaining (r : AbrReader) : ℚ := (r.data.length : ℚ) - r.off

def AbrReader.seek (r : AbrReader) (pos : ℚ) : AbrReader := { r with off := pos }

def AbrReader.skip (r : AbrReader) (n : ℚ) : AbrReader := { r with off := r.off + n }

/-- The byte under the cursor (after JS index truncation). -/
def AbrReader.byte (r : AbrReader) (i : ℕ) : ℕ := r.data.getD (toIdx r.off + i) 0

def readUint8 (r : AbrReader) : ℕ × AbrReader := (r.byte 0, r.skip 1)

def readInt8 (r : AbrReader) : ℤ × AbrReader :=
  (if 128 ≤ r.byte 0 then (r.byte 0 : ℤ) - 256 else (r.byte 0 : ℤ), r.skip 1)

def readUint16 (r : AbrReader) : ℕ × AbrReader :=
  (256 * r.byte 0 + r.byte 1, r.skip 2)

def readInt16 (r : AbrReader) : ℤ × AbrReader :=
  (if 2 ^ 15 ≤ (readUint16 r).1 then ((readUint16 r).1 : ℤ) - 2 ^ 16
   else ((readUint16 r).1 : ℤ), r.skip 2)

def readUint32 (r : AbrReader) : ℕ × AbrReader :=
  (16777216 * r.byte 0 + 65536 * r.byte 1 + 256 * r.byte 2 + r.byte 3, r.skip 4)

def readInt32 (r : AbrReader) : ℤ × AbrReader :=
  (if 2 ^ 31 ≤ (readUint32 r).1 then ((readUint32 r).1 : ℤ) - 2 ^ 32
   else ((readUint32 r).1 : ℤ), r.skip 4)

def readSignature (r : AbrReader) : String × AbrReader :=
  (String.mk [Char.ofNat (r.byte 0), Char.ofNat (r.byte 1),
              Char.ofNat (r.byte 2), Char.ofNat (r.byte 3)], r.skip 4)

def readBytes (r : AbrReader) (n : ℕ) : List ℕ × AbrReader :=
  ((List.range n).map (fun i => r.byte i), r.skip n)

/-- IEEE-754 binary64 decoding (readFloat64), idealised to an exact
rational; an exponent field of 2047 (infinities and NaNs) is mapped to 0,
a value none of the theorems below depend on. -/
def readFloat64 (r : AbrReader) : ℚ × AbrReader :=
  let hi : ℕ := 65536 * (256 * r.byte 0 + r.byte 1) + 256 * r.byte 2 + r.byte 3
  let lo : ℕ := 65536 * (256 * r.byte 4 + r.byte 5) + 256 * r.byte 6 + r.byte 7
  let sign : ℚ := if 2 ^ 31 ≤ hi then -1 else 1
  let e : ℕ := hi / 2 ^ 20 % 2 ^ 11
  let m : ℕ := (hi % 2 ^ 20) * 2 ^ 32 + lo
  let mag : ℚ :=
    if e = 0 then (m : ℚ) * (2 : ℚ) ^ (-1074 : ℤ)
    else if e = 2047 then 0
    else ((2 ^ 52 + m : ℕ) : ℚ) * (2 : ℚ) ^ ((e : ℤ) - 1075)
  (sign * mag, r.skip 8)

/-- The value of a big-endian 16-bit read at a whole-number offset. -/
def u16At (data : List ℕ) (n : ℕ) : ℕ := (readUint16 ⟨data, (n : ℚ)⟩).1

/-- The value of a big-endian 32-bit unsigned read at a whole-number offset. -/
def u32At (data : List ℕ) (n : ℕ) : ℕ := (readUint32 ⟨data, (n : ℚ)⟩).1

/-- The value of a big-endian 32-bit signed read at a whole-number offset. -/
def i32At (data : List ℕ) (n : ℕ) : ℤ := (readInt32 ⟨data, (n : ℚ)⟩).1

/-- The value of a byte read at a whole-number offset. -/
def u8At (data : List ℕ) (n : ℕ) : ℕ := (readUint8 ⟨data, (n : ℚ)⟩).1

/-! ## Pixel decompression -/

/-- readRawPixels: raw (uncompressed) channel copy.  Depth 8 copies bytes,
depth 16 keeps the high byte of each big-endian sample, and any other
depth fills the output with 255 and skips the corresponding byte span. -/
def readRawPixels (r : AbrReader) (width height depth : ℕ) : List ℕ × AbrReader :=
  let count := width * height
  if depth = 8 then readBytes r count
  else if depth = 16 then
    ((List.range count).map (fun i => (256 * r.byte (2 * i) + r.byte (2 * i + 1)) / 256),
     r.skip (2 * count))
  else (List.replicate count 255, r.skip ((count : ℚ) * ((depth : ℚ) / 8)))

/-- One RLE sample: depth-16 channels read a big-endian 16-bit value and
shift it down to its high byte, every other depth reads a single byte. -/
def readSample (bpp : ℕ) (r : AbrReader) : ℕ × AbrReader :=
  if bpp = 2 then
    let (v, r1) := readUint16 r
    (v / 256, r1)
  else readUint8 r

/-- The literal-run inner loop of readRlePixels: read up to k samples,
stopping early once the output is full. -/
def readLits (bpp : ℕ) (total : ℕ) : ℕ → AbrReader → List ℕ → List ℕ × AbrReader
  | 0, r, acc => (acc, r)
  | k + 1, r, acc =>
    if total ≤ acc.length then (acc, r)
    else
      let (v, r1) := readSample bpp r
      readLits bpp total k r1 (acc ++ [v])

/-- The control loop of readRlePixels.  The source's while loop consumes at
least one byte per iteration; fuel (instantiated with the buffer length,
an upper bound on the possible iterations) makes that recursion
structural. -/
def rleLoop (bpp total : ℕ) : ℕ → AbrReader → List ℕ → List ℕ × AbrReader
  | 0, r, acc => (acc, r)
  | fuel + 1, r, acc =>
    if total ≤ acc.length then (acc, r)
    else if r.remaining < 1 then (acc, r)
    else
      let (n, r1) := readInt8 r
      if 0 ≤ n then
        let (acc2, r2) := readLits bpp total (n.toNat + 1) r1 acc
        rleLoop bpp total fuel r2 acc2
      else if -128 < n then
        let (v, r2) := readSample bpp r1
        let reps := min (1 - n).toNat (total - acc.length)
        rleLoop bpp total fuel r2 (acc ++ List.replicate reps v)
      else rleLoop bpp total fuel r1 acc

/-- readRlePixels: per-scanline length headers (one 16-bit word per row)
are consumed and discarded, then PackBits-style runs are decoded until
width times height samples are produced or the input runs out.  Positions
never written (a truncated stream) keep the Uint8Array default 0. -/
def readRlePixels (r : AbrReader) (width height depth : ℕ) : List ℕ × AbrReader :=
  let bpp := if depth = 16 then 2 else 1
  let r1 := r.skip (2 * height)
  let total := width * height
  let res := rleLoop bpp total (r.data.length + 1) r1 []
  (res.1 ++ List.replicate (total - res.1.length) 0, res.2)

/-! ## JS string helpers -/

/-- Strip embedded NUL characters: the regex replace of nulls with the
empty string used on identifiers and names. -/
def stripNulls (s : String) : String := String.mk (s.data.filter (fun c => c ≠ Char.ofNat 0))

/-- The character class removed by the JS trim method (WhiteSpace and
LineTerminator code points). -/
def jsWhitespaceChar (c : Char) : Bool :=
  c = ' ' ∨ c = Char.ofNat 9 ∨ c = Char.ofNat 10 ∨ c = Char.ofNat 11 ∨
  c = Char.ofNat 12 ∨ c = Char.ofNat 13 ∨ c = Char.ofNat 0xa0 ∨
  c = Char.ofNat 0xfeff ∨ c = Char.ofNat 0x2028 ∨ c = Char.ofNat 0x2029

/-- JS String.prototype.trim: drop leading and trailing whitespace. -/
def jsTrim (s : String) : String :=
  String.mk (((s.data.dropWhile jsWhitespaceChar).reverse.dropWhile jsWhitespaceChar).reverse)

/-! ## Descriptor values

The descriptor parser builds dynamically-typed JS objects; DescValue is
the corresponding tagged union.  Numeric payloads decoded from the file
are exact rationals (every IEEE-754 double is rational).  The null
constructor models the JS null returned for skipped payloads (binary
blobs, references, aliases, paths, type descriptors). -/

inductive DescValue where
  | obj : List (String × DescValue) → DescValue
  | list : List DescValue → DescValue
  | untf : String → ℚ → DescValue
  | doub : ℚ → DescValue
  | long : ℤ → DescValue
  | bool : Bool → DescValue
  | text : String → DescValue
  | enum : String → DescValue
  | null : DescValue
deriving BEq

/-- A decoded descriptor object: key-to-value record. -/
abbrev Desc := List (String × DescValue)

/-- JS property read on a decoded descriptor object. -/
def dGet (d : Desc) (k : String) : Option DescValue :=
  (d.find? (fun p => p.1 = k)).map (fun p => p.2)

/-- JS property write: the descriptor item loop assigns obj[key] = value,
overwriting an earlier duplicate key. -/
def dSet (d : Desc) (k : String) (v : DescValue) : Desc :=
  if (d.find? (fun p => p.1 = k)).isSome then
    d.map (fun p => if p.1 = k then (k, v) else p)
  else d ++ [(k, v)]

/-- JS truthiness of a possibly-absent descriptor value. -/
def truthy : Option DescValue → Bool
  | none => false
  | some (.obj _) => true
  | some (.list _) => true
  | some (.untf _ _) => true
  | some (.doub q) => q ≠ 0
  | some (.long n) => n ≠ 0
  | some (.bool b) => b
  | some (.text s) => s ≠ ""
  | some (.enum s) => s ≠ ""
  | some .null => false

/-- A value used where the source casts to a plain number (bVTy, fStp,
Cnt): doubles and 32-bit integers qualify. -/
def jsNum : Option DescValue → Option ℚ
  | some (.doub q) => some q
  | some (.long n) => some (n : ℚ)
  | _ => none

/-- A value used where the source casts to a nested descriptor object. -/
def asObj : Option DescValue → Option Desc
  | some (.obj l) => some l
  | _ => none

/-! ## Nested descriptor decoder (descriptor-parser source file) -/

/-- Length-prefixed UTF-16BE string: uint32 length then that many 16-bit
code units (String.fromCharCode on each). -/
def readUnicodeString (r : AbrReader) : String × AbrReader :=
  let (len, r1) := readUint32 r
  (String.mk ((List.range len).map
    (fun i => Char.ofNat (256 * r1.byte (2 * i) + r1.byte (2 * i + 1)))),
   r1.skip (2 * (len : ℚ)))

/-- Key or class ID: uint32 length, then a 4-character signature when the
length is zero, else that many ASCII bytes. -/
def readKey (r : AbrReader) : String × AbrReader :=
  let (len, r1) := readUint32 r
  if len = 0 then readSignature r1
  else (String.mk ((List.range len).map (fun i => Char.ofNat (r1.byte i))), r1.skip (len : ℚ))

/-- Reference values (OSType tag followed by a space): each sub-form is
consumed and discarded; an unknown sub-form bails out, returning the
reader as it stands. -/
def readRefItems : ℕ → AbrReader → AbrReader
  | 0, r => r
  | count + 1, r =>
    let (refType, r1) := readSignature r
    if refType = "prop" then
      readRefItems count (readKey (readKey (readUnicodeString r1).2).2).2
    else if refType = "Clss" then
      readRefItems count (readKey (readUnicodeString r1).2).2
    else if refType = "Enmr" then
      readRefItems count (readKey (readKey (readKey (readUnicodeString r1).2).2).2).2
    else if refType = "rele" then
      readRefItems count (readInt32 (readKey (readUnicodeString r1).2).2).2
    else if refType = "Idnt" ∨ refType = "indx" then
      readRefItems count (readInt32 r1).2
    else if refType = "name" then
      readRefItems count (readUnicodeString (readKey (readUnicodeString r1).2).2).2
    else r1

mutual

/-- The recursive tagged-value decoder (readOSType / readDescriptorBody).
An unknown tag throws in the source; here it is the none result, caught
by the enclosing object's item loop, which keeps the keys decoded so far.
The source recursion consumes input at every level; fuel (instantiated
with a generous multiple of the buffer length) makes it structural. -/
def readOSType : ℕ → AbrReader → String → Option (DescValue × AbrReader)
  | 0, _, _ => none
  | fuel + 1, r, type =>
    if type = "Objc" ∨ type = "GlbO" then
      let (d, r1) := readDescBody fuel r
      some (.obj d, r1)
    else if type = "VlLs" then
      let (count, r1) := readUint32 r
      match readListItems fuel count r1 [] with
      | none => none
      | some (arr, r2) => some (.list arr, r2)
    else if type = "UntF" then
      let (unit, r1) := readSignature r
      let (value, r2) := readFloat64 r1
      some (.untf unit value, r2)
    else if type = "doub" then
      let (v, r1) := readFloat64 r
      some (.doub v, r1)
    else if type = "long" then
      let (v, r1) := readInt32 r
      some (.long v, r1)
    else if type = "bool" then
      let (v, r1) := readUint8 r
      some (.bool (v ≠ 0), r1)
    else if type = "TEXT" then
      let (s, r1) := readUnicodeString r
      some (.text s, r1)
    else if type = "enum" then
      let (t, r1) := readKey r
      let (v, r2) := readKey r1
      some (.enum (t ++ "." ++ v), r2)
    else if type = "tdta" then
      let (len, r1) := readUint32 r
      some (.null, r1.skip (len : ℚ))
    else if type = "obj " then
      let (count, r1) := readUint32 r
      some (.null, readRefItems count r1)
    else if type = "type" ∨ type = "GlbC" then
      some (.null, (readKey (readUnicodeString r).2).2)
    else if type = "alis" then
      let (len, r1) := readUint32 r
      some (.null, r1.skip (len : ℚ))
    else if type = "ObAr" then
      let (count, r2) := readUint32 (readKey (readUnicodeString r).2).2
      match readListItems fuel count r2 [] with
      | none => none
      | some (arr, r3) => some (.list arr, r3)
    else if type = "Pth " then
      let (len, r1) := readUint32 r
      some (.null, r1.skip (len : ℚ))
    else none

/-- List items (VlLs and ObAr): a 4-byte tag then a value, repeatedly. -/
def readListItems : ℕ → ℕ → AbrReader → List DescValue → Option (List DescValue × AbrReader)
  | _, 0, r, acc => some (acc, r)
  | 0, _ + 1, _, _ => none
  | fuel + 1, count + 1, r, acc =>
    let (itemType, r1) := readSignature r
    match readOSType fuel r1 itemType with
    | none => none
    | some (v, r2) => readListItems fuel count r2 (acc ++ [v])

/-- Descriptor body: class name, class ID, item count, then the items. -/
def readDescBody : ℕ → AbrReader → Desc × AbrReader
  | 0, r => ([], r)
  | fuel + 1, r =>
    let r1 := (readKey (readUnicodeString r).2).2
    let (itemCount, r2) := readUint32 r1
    readDescItems fuel itemCount r2 []

/-- The item loop of readDescriptorBody: a decode failure inside one value
stops the loop, keeping the keys decoded so far. -/
def readDescItems : ℕ → ℕ → AbrReader → Desc → Desc × AbrReader
  | 0, _, r, acc => (acc, r)
  | _ + 1, 0, r, acc => (acc, r)
  | fuel + 1, count + 1, r, acc =>
    let (key, r1) := readKey r
    let (type, r2) := readSignature r1
    match readOSType fuel r2 type with
    | none => (acc, r2)
    | some (v, r3) => readDescItems fuel count r3 (dSet acc key v)

end

/-- Entry point (readDescriptor): decode one descriptor at the cursor. -/
def readDescriptor (r : AbrReader) : Desc × AbrReader :=
  readDescBody (4 * (r.data.length + 16)) r

/-! ## Brush dynamics model (types source file)

Scalar fields are idealised reals: the \#Ang unit conversion multiplies
by pi over 180, which leaves the rationals.  Consequently everything
downstream of untfValue is noncomputable and concrete evaluations go
through simp lemmas instead of kernel reduction. -/

inductive ControlSource where
  | off | pressure | tilt | direction | fade
deriving DecidableEq

structure DynamicsController where
  control : ControlSource
  jitter : ℝ
  minimum : ℝ
  fadeSteps : ℝ

structure BrushDynamics where
  size : DynamicsController
  angle : DynamicsController
  roundness : DynamicsController
  scatterEnabled : Bool
  scatter : DynamicsController
  scatterCount : ℝ
  scatterBothAxes : Bool
  opacity : DynamicsController
  flow : DynamicsController
  spacing : ℝ
  tipAngle : ℝ
  tipRoundness : ℝ
  flipX : Bool
  flipY : Bool
  hardness : ℝ

noncomputable section

def defaultController : DynamicsController :=
  { control := .off, jitter := 0, minimum := 0, fadeSteps := 0 }

def defaultDynamics : BrushDynamics :=
  { size := { control := .pressure, jitter := 0, minimum := 0.1, fadeSteps := 0 }
    angle := defaultController
    roundness := defaultController
    scatterEnabled := false
    scatter := defaultController
    scatterCount := 1
    scatterBothAxes := false
    opacity := { control := .pressure, jitter := 0, minimum := 0, fadeSteps := 0 }
    flow := defaultController
    spacing := 0.15
    tipAngle := 0
    tipRoundness := 1
    flipX := false
    flipY := false
    hardness := 1 }

/-- untfValue: normalise a unit-tagged double — percentages divide by 100,
angles convert degrees to radians, anything else (pixels included) passes
through; plain numbers pass through; non-numbers give 0. -/
def untfValue (v : Option DescValue) (normalize : Bool) : ℝ :=
  match v with
  | some (.untf unit val) =>
    if normalize ∧ unit = "#Prc" then (val : ℝ) / 100
    else if normalize ∧ unit = "#Ang" then (val : ℝ) * Real.pi / 180
    else (val : ℝ)
  | some (.doub x) => (x : ℝ)
  | some (.long n) => (n : ℝ)
  | _ => 0

/-- The BVTY_MAP lookup (JS numeric property keys compare by value, so a
double 2.0 hits the same entry as the integer 2); unknown codes and
non-numbers fall back to off. -/
def bvtyControl (v : Option DescValue) : ControlSource :=
  match jsNum v with
  | none => .off
  | some q =>
    if q = 0 then .off
    else if q = 1 then .fade
    else if q = 2 then .pressure
    else if q = 3 then .tilt
    else if q = 5 then .direction
    else if q = 6 then .direction
    else .off

/-- parseBrVr: decode one dynamics controller sub-object.  A missing (or,
in the source, otherwise falsy) object gives the default controller. -/
def parseBrVr (o : Option Desc) : DynamicsController :=
  match o with
  | none => defaultController
  | some obj =>
    { control := bvtyControl (dGet obj "bVTy")
      jitter := untfValue (dGet obj "jitter") true
      minimum := untfValue (dGet obj "Mnm ") true
      fadeSteps := ((jsNum (dGet obj "fStp")).getD 0 : ℚ) }

/-- JS a || b on numbers: b when a is zero (the only falsy value arising
here; the model carries no NaN). -/
def jsOr (a b : ℝ) : ℝ := if a = 0 then b else a

/-- descriptorToDynamics: overlay a descriptor preset onto the default
dynamics record. -/
def descriptorToDynamics (preset : Desc) : BrushDynamics :=
  let dyn := defaultDynamics
  let dyn :=
    match asObj (dGet preset "Brsh") with
    | none => dyn
    | some brsh =>
      { dyn with
        spacing := jsOr (untfValue (dGet brsh "Spcn") true) 0.25
        tipAngle := untfValue (dGet brsh "Angl") true
        tipRoundness := jsOr (untfValue (dGet brsh "Rndn") true) 1
        flipX := truthy (dGet brsh "flipX")
        flipY := truthy (dGet brsh "flipY")
        hardness := jsOr (untfValue (dGet brsh "Hrdn") true) 1 }
  let dyn :=
    if truthy (dGet preset "useTipDynamics") then
      let size0 := parseBrVr (asObj (dGet preset "szVr"))
      let minDiam := untfValue (dGet preset "minimumDiameter") true
      let size1 :=
        if 0 < minDiam ∧ size0.control ≠ .off then { size0 with minimum := minDiam }
        else size0
      { dyn with size := size1
                 angle := parseBrVr (asObj (dGet preset "angleDynamics"))
                 roundness := parseBrVr (asObj (dGet preset "roundnessDynamics")) }
    else dyn
  let dyn := { dyn with scatterEnabled := truthy (dGet preset "useScatter") }
  let dyn :=
    if dyn.scatterEnabled then
      { dyn with scatter := parseBrVr (asObj (dGet preset "scatterDynamics"))
                 scatterCount := ((jsNum (dGet preset "Cnt ")).getD 1 : ℚ)
                 scatterBothAxes := truthy (dGet preset "bothAxes") }
    else dyn
  let dyn :=
    if truthy (dGet preset "usePaintDynamics") then
      { dyn with opacity := parseBrVr (asObj (dGet preset "opVr"))
                 flow := parseBrVr (asObj (dGet preset "prVr")) }
    else dyn
  match asObj (dGet preset "toolOptions") with
  | none => dyn
  | some toolOpts =>
    let dyn :=
      if truthy (dGet toolOpts "usePressureOverridesSize") ∧ dyn.size.control = .off then
        { dyn with size := { control := .pressure, jitter := 0, minimum := 0.1, fadeSteps := 0 } }
      else dyn
    if truthy (dGet toolOpts "usePressureOverridesOpacity") ∧ dyn.opacity.control = .off then
      { dyn with opacity := { control := .pressure, jitter := 0, minimum := 0, fadeSteps := 0 } }
    else dyn

/-! ## Raw brushes and the ABR container parsers (abr-parser source file) -/

structure AbrRawBrush where
  name : String
  brushId : String
  width : ℤ
  height : ℤ
  pixels : List ℕ
  spacing : ℝ
  diameter : ℤ
  dynamics : Option BrushDynamics

/-- A default record for out-of-range list reads in statements. -/
def emptyRawBrush : AbrRawBrush :=
  { name := "", brushId := "", width := 0, height := 0, pixels := [], spacing := 0,
    diameter := 0, dynamics := none }

/-- One legacy (v1/v2) sampled-brush entry, from just after its type and
length fields.  Out-of-bounds reads, which throw in the source and are
swallowed by the per-entry try/catch, here produce padding zeroes — both
give an entry that contributes nothing or a guard-rejected bounding box,
and the outer loop reseeks either way. -/
def parseV1V2Entry (r : AbrReader) (i : ℕ) : Option AbrRawBrush :=
  let r1 := r.skip 4
  let spacing := readUint16 r1
  let top := readInt32 spacing.2
  let left := readInt32 top.2
  let bottom := readInt32 left.2
  let right := readInt32 bottom.2
  let width := right.1 - left.1
  let height := bottom.1 - top.1
  if 0 < width ∧ 0 < height ∧ width ≤ 5000 ∧ height ≤ 5000 then
    let depth := readUint16 right.2
    let compression := readUint8 depth.2
    let pixels :=
      if compression.1 = 0 then (readRawPixels compression.2 width.toNat height.toNat depth.1).1
      else (readRlePixels compression.2 width.toNat height.toNat depth.1).1
    some { name := "Brush " ++ toString (i + 1), brushId := "", width := width,
           height := height, pixels := pixels, spacing := (spacing.1 : ℝ) / 100,
           diameter := max width height, dynamics := none }
  else none

/-- The v1/v2 entry loop: one iteration per declared brush, each ending
with a seek to the entry's declared end offset whether or not the entry
contributed a brush. -/
def v1v2Loop : ℕ → ℕ → AbrReader → List AbrRawBrush → List AbrRawBrush
  | 0, _, _, acc => acc
  | k + 1, i, r, acc =>
    if r.remaining < 6 then acc
    else
      let btype := readUint16 r
      let bsize := readUint32 btype.2
      let endPos := bsize.2.off + (bsize.1 : ℚ)
      let acc2 :=
        if btype.1 = 2 ∧ 0 < bsize.1 then
          match parseV1V2Entry bsize.2 i with
          | some b => acc ++ [b]
          | none => acc
        else acc
      v1v2Loop k (i + 1) (bsize.2.seek endPos) acc2

def parseAbrV1V2 (r : AbrReader) : List AbrRawBrush :=
  let count := readUint16 r
  v1v2Loop count.1 0 count.2 []

/-! ### v6+ resource-block container -/

def V62_OVERHEAD : ℕ := 264

structure BlockInfo where
  key : String
  start : ℚ
  size : ℕ

/-- Scan the flat 8BIM block sequence, recording key, payload start and
size of each block without decoding payloads. -/
def scanBlocks : ℕ → AbrReader → List BlockInfo → List BlockInfo
  | 0, _, acc => acc
  | fuel + 1, r, acc =>
    if r.remaining < 12 then acc
    else
      let (sig, r1) := readUint32 r
      if sig ≠ 0x3842494d then acc
      else
        let (key, r2) := readSignature r1
        let (blockSize, r3) := readUint32 r2
        scanBlocks fuel (r3.skip (blockSize : ℚ)) (acc ++ [⟨key, r3.off, blockSize⟩])

/-- One sample inside the samp block, from just after its length field. -/
def sampEntry (r : AbrReader) (dataEnd : ℚ) (brushIdx : ℕ) : Option AbrRawBrush :=
  let (idLen, r) := readUint8 r
  let (idBytes, r) := readBytes r idLen
  let brushId := String.mk (idBytes.map Char.ofNat)
  if ((V62_OVERHEAD + 19 : ℕ) : ℚ) ≤ dataEnd - r.off then
    let r := r.skip (V62_OVERHEAD : ℚ)
    let (top, r) := readInt32 r
    let (left, r) := readInt32 r
    let (bottom, r) := readInt32 r
    let (right, r) := readInt32 r
    let width := right - left
    let height := bottom - top
    if 0 < width ∧ 0 < height ∧ width ≤ 5000 ∧ height ≤ 5000 then
      let (depth, r) := readUint16 r
      let (compression, r) := readUint8 r
      if depth = 8 ∨ depth = 16 then
        let pixels :=
          if compression = 0 then (readRawPixels r width.toNat height.toNat depth).1
          else (readRlePixels r width.toNat height.toNat depth).1
        some { name := "Brush " ++ toString (brushIdx + 1), brushId := brushId,
               width := width, height := height, pixels := pixels, spacing := 0.25,
               diameter := max width height, dynamics := none }
      else none
    else none
  else none

/-- The sample loop of the samp block: each sample is a length-prefixed
span; afterwards seek to its declared end and skip the 4-byte alignment
padding. -/
def sampLoop (blockEnd : ℚ) : ℕ → AbrReader → ℕ → List AbrRawBrush → List AbrRawBrush
  | 0, _, _, acc => acc
  | fuel + 1, r, brushIdx, acc =>
    if ¬ r.off < blockEnd - 4 then acc
    else
      let (sampleLen, r1) := readUint32 r
      let dataEnd := r1.off + (sampleLen : ℚ)
      if sampleLen < 1 ∨ blockEnd < dataEnd then acc
      else
        let acc2 :=
          match sampEntry r1 dataEnd brushIdx with
          | some b => acc ++ [b]
          | none => acc
        let padding : ℚ := ((4 - sampleLen % 4) % 4 : ℕ)
        sampLoop blockEnd fuel ((r1.seek dataEnd).skip padding) (brushIdx + 1) acc2

/-- parseAbrV6Plus: skip the sub-version, scan the 8BIM blocks, decode
every samp block, then decode the first desc block (after its 4-byte
version prefix) into the preset list of its top-level Brsh array. -/
def parseAbrV6Plus (r : AbrReader) : List AbrRawBrush × List DescValue :=
  let r := r.skip 2
  let blocks := scanBlocks (r.data.length + 1) r []
  let brushes :=
    (blocks.filter (fun b => b.key = "samp" ∧ 8 < b.size)).foldl
      (fun acc b => sampLoop (b.start + (b.size : ℚ)) (r.data.length + 1) (r.seek b.start) 0 acc) []
  let descPresets :=
    match blocks.find? (fun b => b.key = "desc" ∧ 8 < b.size) with
    | none => []
    | some b =>
      let desc := (readDescriptor ((r.seek b.start).skip 4)).1
      match dGet desc "Brsh" with
      | some (.list l) => l
      | _ => []
  (brushes, descPresets)

/-! ### Identifier merge (mergeDescriptorDynamics) -/

/-- The indexed loop building the UUID-to-index map: one entry per sample
with a nonempty identifier. -/
def buildUuidMapFrom : ℕ → List AbrRawBrush → List (String × ℕ)
  | _, [] => []
  | i, b :: t =>
    (if b.brushId ≠ "" then [(b.brushId, i)] else []) ++ buildUuidMapFrom (i + 1) t

/-- The UUID-to-index map of mergeDescriptorDynamics; a later duplicate
identifier overwrites an earlier one (JS Map.set), which mapGet mirrors
by searching from the back. -/
def buildUuidMap (bs : List AbrRawBrush) : List (String × ℕ) :=
  buildUuidMapFrom 0 bs

/-- JS Map.get: the value of the most recent set for the key. -/
def mapGet (l : List (String × ℕ)) (k : String) : Option ℕ :=
  (l.reverse.find? (fun p => p.1 = k)).map (fun p => p.2)

/-- In-place update of one list position (the source mutates
brushes[idx]). -/
def modifyAt : List α → ℕ → (α → α) → List α
  | [], _, _ => []
  | a :: t, 0, f => f a :: t
  | a :: t, n + 1, f => a :: modifyAt t n f

/-- Resolve the sample index a descriptor preset links to: its Brsh
sub-object's sampledData identifier, stripped of NULs and trimmed, looked
up in the UUID map; any missing piece means no link (the source's
continue chain). -/
def presetTarget (m : List (String × ℕ)) (preset : DescValue) : Option ℕ :=
  match asObj (some preset) with
  | none => none
  | some pd =>
    match asObj (dGet pd "Brsh") with
    | none => none
    | some brsh =>
      match dGet brsh "sampledData" with
      | some (.text uuid) => if uuid = "" then none else mapGet m (jsTrim (stripNulls uuid))
      | _ => none

/-- The body of the merge loop for one preset: on a link, overwrite the
sample's name when the descriptor carries a nonempty one, attach the
normalised dynamics, and prefer a positive descriptor spacing. -/
def mergeStep (m : List (String × ℕ)) (bs : List AbrRawBrush) (preset : DescValue) :
    List AbrRawBrush :=
  match presetTarget m preset with
  | none => bs
  | some idx =>
    let pd := (asObj (some preset)).getD []
    let brsh := (asObj (dGet pd "Brsh")).getD []
    modifyAt bs idx (fun b0 =>
      let b1 :=
        match dGet pd "Nm  " with
        | some (.text nm) => if nm = "" then b0 else { b0 with name := stripNulls nm }
        | _ => b0
      let b2 := { b1 with dynamics := some (descriptorToDynamics pd) }
      let descSpacing := untfValue (dGet brsh "Spcn") true
      if 0 < descSpacing then { b2 with spacing := descSpacing } else b2)

def mergeDescriptorDynamics (bs : List AbrRawBrush) (descPresets : List DescValue) :
    List AbrRawBrush :=
  descPresets.foldl (mergeStep (buildUuidMap bs)) bs

/-! ### Top-level dispatch (parseAbr) -/

inductive AbrError where
  | tooSmall
  | unsupportedVersion (version : ℕ)
deriving DecidableEq

def parseAbr (buffer : List ℕ) : Except AbrError (List AbrRawBrush) :=
  let r : AbrReader := ⟨buffer, 0⟩
  if r.remaining < 4 then .error .tooSmall
  else
    let vr := readUint16 r
    if vr.1 = 1 ∨ vr.1 = 2 then .ok (parseAbrV1V2 vr.2)
    else if 6 ≤ vr.1 ∧ vr.1 ≤ 10 then
      let pr := parseAbrV6Plus vr.2
      .ok (if pr.2.isEmpty then pr.1 else mergeDescriptorDynamics pr.1 pr.2)
    else .error (.unsupportedVersion vr.1)

/-! ### Tip building and loadAbrFile

The renderable bitmap is an I/O resource (createImageBitmap), out of the
embedding; the tip keeps the pure fields the source computes. -/

structure BrushTip where
  name : String
  diameter : ℤ
  spacing : ℝ

def rawBrushToTip (raw : AbrRawBrush) : BrushTip :=
  { name := raw.name, diameter := raw.diameter,
    spacing := if 0 < raw.spacing then raw.spacing else 0.25 }

structure LoadedBrush where
  tip : BrushTip
  dynamics : Option BrushDynamics
  presetName : Option String

/-- The separator test is the case-insensitive whole-string regex match
on the brush name. -/
def isSeparatorName (s : String) : Bool := s.toLower = "separator"

/-- The per-brush loop of loadAbrFile: skip tiny placeholder brushes and
separators, convert the rest in order. -/
def loadFiltered : List AbrRawBrush → List LoadedBrush
  | [] => []
  | raw :: rest =>
    if raw.width < 4 ∨ raw.height < 4 then loadFiltered rest
    else if isSeparatorName raw.name then loadFiltered rest
    else
      let tip := rawBrushToTip raw
      { tip := tip, dynamics := raw.dynamics,
        presetName := if raw.name ≠ tip.name then some raw.name else none } ::
        loadFiltered rest

def loadAbrFile (buffer : List ℕ) : Except AbrError (List LoadedBrush) :=
  (parseAbr buffer).map loadFiltered

/-! ## Stroke engine (brush-engine source file)

The engine draws through a caller-supplied canvas context; that boundary
is modelled by recording each placeStamp call as a Stamp event carrying
the call's arguments.  placeStamp's own body (tinting, jitter
randomness, the sub-half-pixel and near-zero-opacity draw aborts) is
canvas work downstream of that event. -/

structure BrushPreset where
  id : String
  name : String
  tip : BrushTip
  dynamics : BrushDynamics

structure Stamp where
  x : ℝ
  y : ℝ
  pressure : ℝ
  tiltX : ℝ
  tiltY : ℝ

structure StrokeState where
  lastX : ℝ
  lastY : ℝ
  dirX : ℝ
  dirY : ℝ
  distanceAccum : ℝ
  active : Bool

structure BrushEngine where
  preset : BrushPreset
  size : ℝ
  color : String
  opacity : ℝ
  dpr : ℝ
  stroke : StrokeState

/-- A fresh engine around a preset, with the field initialisers of the
source class (size 8, white, opacity 1, dpr 1, idle stroke). -/
def mkEngine (preset : BrushPreset) : BrushEngine :=
  { preset := preset, size := 8, color := "#ffffff", opacity := 1, dpr := 1,
    stroke := { lastX := 0, lastY := 0, dirX := 1, dirY := 0, distanceAccum := 0,
                active := false } }

def setSize (e : BrushEngine) (size : ℝ) : BrushEngine := { e with size := size }

/-- applyController: resolve one dynamics controller to a multiplier. -/
def applyController (ctrl : DynamicsController) (pressure tiltX tiltY : ℝ) : ℝ :=
  match ctrl.control with
  | .pressure => ctrl.minimum + (1 - ctrl.minimum) * pressure
  | .tilt =>
    ctrl.minimum + (1 - ctrl.minimum) * (Real.sqrt (tiltX * tiltX + tiltY * tiltY) / 90)
  | .direction => 1
  | .fade => 1
  | .off => 1

/-- The spec's description of the same resolution rule, for comparison:
it clamps the tilt magnitude term at 1. -/
def specResolvedMultiplier (ctrl : DynamicsController) (pressure tiltX tiltY : ℝ) : ℝ :=
  match ctrl.control with
  | .pressure => ctrl.minimum + (1 - ctrl.minimum) * pressure
  | .tilt =>
    ctrl.minimum + (1 - ctrl.minimum) * min 1 (Real.sqrt (tiltX * tiltX + tiltY * tiltY) / 90)
  | _ => 1

def beginStroke (e : BrushEngine) (x y pressure tiltX tiltY : ℝ) :
    BrushEngine × List Stamp :=
  ({ e with stroke := { lastX := x, lastY := y, dirX := 1, dirY := 0,
                        distanceAccum := 0, active := true } },
   [⟨x, y, pressure, tiltX, tiltY⟩])

def endStroke (e : BrushEngine) : BrushEngine :=
  { e with stroke := { e.stroke with active := false, distanceAccum := 0 } }

/-- The interval-stepping while loop of addPoint: starting from the
distance already traveled, keep stepping one spacing interval and
placing a scatter-count batch of stamps while the segment has room.
The loop adds at least one spacing unit (at least one pixel) per
iteration, so fuel of at least the segment length is enough. -/
def stampWhile (cnt : ℕ) (lastX lastY dx dy segmentDist spacingPx pressure tiltX tiltY : ℝ) :
    ℕ → ℝ → List Stamp × ℝ
  | 0, traveled => ([], traveled)
  | fuel + 1, traveled =>
    if traveled + spacingPx ≤ segmentDist then
      let traveled2 := traveled + spacingPx
      let t := traveled2 / segmentDist
      let rest := stampWhile cnt lastX lastY dx dy segmentDist spacingPx pressure tiltX tiltY
        fuel traveled2
      (List.replicate cnt ⟨lastX + dx * t, lastY + dy * t, pressure, tiltX, tiltY⟩ ++ rest.1,
       rest.2)
    else ([], traveled)

/-- addPoint: a no-op while idle or for a zero-length segment; otherwise
update the stroke direction, place the first batch where the accumulated
distance reaches the spacing threshold, continue at full intervals, and
carry the leftover distance into the accumulator. -/
def addPoint (fuel : ℕ) (e : BrushEngine) (x y pressure tiltX tiltY : ℝ) :
    BrushEngine × List Stamp :=
  if ¬ e.stroke.active then (e, [])
  else
    let dx := x - e.stroke.lastX
    let dy := y - e.stroke.lastY
    let segmentDist := Real.sqrt (dx * dx + dy * dy)
    if segmentDist = 0 then (e, [])
    else
      let dirX := dx / segmentDist
      let dirY := dy / segmentDist
      let dynamics := e.preset.dynamics
      let spacingPx := max 1 (e.size * dynamics.spacing)
      let remaining := spacingPx - e.stroke.distanceAccum
      let cnt := (max 1 (round dynamics.scatterCount)).toNat
      if remaining ≤ segmentDist then
        let firstT := remaining / segmentDist
        let first : Stamp := ⟨e.stroke.lastX + dx * firstT, e.stroke.lastY + dy * firstT,
                              pressure, tiltX, tiltY⟩
        let w := stampWhile cnt e.stroke.lastX e.stroke.lastY dx dy segmentDist spacingPx
          pressure tiltX tiltY fuel remaining
        ({ e with stroke := { lastX := x, lastY := y, dirX := dirX, dirY := dirY,
                              distanceAccum := segmentDist - w.2, active := true } },
         List.replicate cnt first ++ w.1)
      else
        ({ e with stroke := { lastX := x, lastY := y, dirX := dirX, dirY := dirY,
                              distanceAccum := e.stroke.distanceAccum + segmentDist,
                              active := true } },
         [])

/-- Deliver a polyline as successive addPoint calls, collecting the
stamps in order. -/
def addPath (fuel : ℕ) (e : BrushEngine) (pressure tiltX tiltY : ℝ) :
    List (ℝ × ℝ) → BrushEngine × List Stamp
  | [] => (e, [])
  | p :: rest =>
    let s1 := addPoint fuel e p.1 p.2 pressure tiltX tiltY
    let s2 := addPath fuel s1.1 pressure tiltX tiltY rest
    (s2.1, s1.2 ++ s2.2)

/-- The n evenly-spaced sample points of a horizontal straight-line path
of length L starting just after x0. -/
def evenPathPoints (x0 y0 L : ℝ) (n : ℕ) : List (ℝ × ℝ) :=
  (List.range n).map (fun i : ℕ => (x0 + ((i : ℝ) + 1) * (L / (n : ℝ)), y0))

/-- The k successive sample points of a horizontal path that advances by a
fixed step d from a base point. -/
def stepPoints (x0 y0 d : ℝ) (k : ℕ) : List (ℝ × ℝ) :=
  (List.range k).map (fun i : ℕ => (x0 + ((i : ℝ) + 1) * d, y0))

/-- A concrete preset (spacing fraction one fifth, scatter count 1) for
evaluating the stroke engine on a concrete path. -/
def c1Preset : BrushPreset :=
  { id := "c1", name := "c1",
    tip := { name := "c1", diameter := 10, spacing := 1/4 },
    dynamics := { defaultDynamics with spacing := 1/5 } }

end

/-! ## PackBits-style encodings (the input side of the RLE round trip)

A stream is a sequence of chunks: a literal run (control byte n from 0 to
127 followed by n plus 1 samples), a repeat run (control byte encoding a
negative n strictly between -128 and 0 followed by one sample emitted
1 - n times), or the skipped -128 sentinel.  At depth 16 each sample is
stored big-endian with its value in the high byte. -/

inductive RleChunk where
  | lits : List ℕ → RleChunk
  | rep : ℕ → ℕ → RleChunk
  | sent : RleChunk

/-- Well-formedness of a chunk: literal runs carry 1 to 128 byte-sized
samples, repeat runs emit 2 to 128 copies of a byte-sized sample. -/
def chunkOK : RleChunk → Prop
  | .lits l => 1 ≤ l.length ∧ l.length ≤ 128 ∧ ∀ b ∈ l, b < 256
  | .rep k v => 2 ≤ k ∧ k ≤ 128 ∧ v < 256
  | .sent => True

instance : DecidablePred chunkOK := fun c => by
  unfold chunkOK; cases c <;> infer_instance

/-- One encoded sample: two bytes (value then low byte 0) at two bytes
per pixel, one byte otherwise. -/
def encSample (bpp v : ℕ) : List ℕ := if bpp = 2 then [v, 0] else [v]

def encChunk (bpp : ℕ) : RleChunk → List ℕ
  | .lits l => (l.length - 1) :: (l.map (encSample bpp)).flatten
  | .rep k v => (257 - k) :: encSample bpp v
  | .sent => [128]

def encChunks (bpp : ℕ) (cs : List RleChunk) : List ℕ := (cs.map (encChunk bpp)).flatten

/-- The byte sequence a chunk stream encodes. -/
def chunksPayload : List RleChunk → List ℕ
  | [] => []
  | .lits l :: cs => l ++ chunksPayload cs
  | .rep k v :: cs => List.replicate k v ++ chunksPayload cs
  | .sent :: cs => chunksPayload cs

/-!
# Theorems

One theorem per claim of the specification, with witnesses at concrete
inputs for the ones that carry hypotheses, and counterexamples where the
code departs from the claim.
-/

/-! ### List and reader step facts used by the decoding proofs -/

@[simp] theorem toIdx_natCast (n : ℕ) : toIdx (n : ℚ) = n := by
  simp [toIdx]

@[simp] theorem natCast_skip (n k : ℕ) :
    ((n : ℚ) + (k : ℚ)) = ((n + k : ℕ) : ℚ) := by
  push_cast; ring

theorem getD_of_drop : ∀ {data : List ℕ} {m x : ℕ} {xs : List ℕ},
    data.drop m = x :: xs → data.getD m 0 = x := by
  intro data
  induction data with
  | nil => intro m x xs h; simp at h
  | cons a t ih =>
    intro m x xs h
    cases m with
    | zero => simp at h ⊢; exact h.1
    | succ n => exact ih h

theorem drop_succ_of_drop {data : List ℕ} {m x : ℕ} {xs : List ℕ}
    (h : data.drop m = x :: xs) : data.drop (m + 1) = xs := by
  rw [← List.drop_drop, h, List.drop_one, List.tail_cons]

theorem drop_app_of_drop {data : List ℕ} {m : ℕ} {l rest : List ℕ}
    (h : data.drop m = l ++ rest) : data.drop (m + l.length) = rest := by
  rw [← List.drop_drop, h, List.drop_left]

theorem readUint8_natCast (data : List ℕ) (m : ℕ) :
    readUint8 ⟨data, (m : ℚ)⟩ = (data.getD m 0, ⟨data, ((m + 1 : ℕ) : ℚ)⟩) := by
  simp only [readUint8, AbrReader.byte, AbrReader.skip, toIdx_natCast, Nat.add_zero]
  refine Prod.ext rfl ?_
  simp only [AbrReader.mk.injEq, true_and]
  push_cast; ring

theorem readInt8_natCast (data : List ℕ) (m : ℕ) :
    readInt8 ⟨data, (m : ℚ)⟩ =
      (if 128 ≤ data.getD m 0 then (data.getD m 0 : ℤ) - 256 else (data.getD m 0 : ℤ),
       ⟨data, ((m + 1 : ℕ) : ℚ)⟩) := by
  simp only [readInt8, AbrReader.byte, AbrReader.skip, toIdx_natCast, Nat.add_zero]
  refine Prod.ext rfl ?_
  simp only [AbrReader.mk.injEq, true_and]
  push_cast; ring

theorem readUint16_natCast (data : List ℕ) (m : ℕ) :
    readUint16 ⟨data, (m : ℚ)⟩ =
      (256 * data.getD m 0 + data.getD (m + 1) 0, ⟨data, ((m + 2 : ℕ) : ℚ)⟩) := by
  simp only [readUint16, AbrReader.byte, AbrReader.skip, toIdx_natCast, Nat.add_zero]
  refine Prod.ext rfl ?_
  simp only [AbrReader.mk.injEq, true_and]
  push_cast; ring

theorem remaining_natCast_lt (data : List ℕ) (m : ℕ) (q : ℚ) :
    ((AbrReader.mk data (m : ℚ)).remaining < q) ↔ ((data.length : ℚ) < (m : ℚ) + q) := by
  simp only [AbrReader.remaining]
  constructor <;> intro h <;> linarith

theorem readUint32_natCast (data : List ℕ) (m : ℕ) :
    readUint32 ⟨data, (m : ℚ)⟩ =
      (16777216 * data.getD m 0 + 65536 * data.getD (m + 1) 0 + 256 * data.getD (m + 2) 0 +
        data.getD (m + 3) 0, ⟨data, ((m + 4 : ℕ) : ℚ)⟩) := by
  simp only [readUint32, AbrReader.byte, AbrReader.skip, toIdx_natCast, Nat.add_zero]
  refine Prod.ext rfl ?_
  simp only [AbrReader.mk.injEq, true_and]
  push_cast; ring

theorem readInt32_natCast (data : List ℕ) (m : ℕ) :
    readInt32 ⟨data, (m : ℚ)⟩ =
      ((if 2 ^ 31 ≤ u32At data m then (u32At data m : ℤ) - 2 ^ 32 else (u32At data m : ℤ)),
       ⟨data, ((m + 4 : ℕ) : ℚ)⟩) := by
  simp only [readInt32, u32At]
  refine Prod.ext rfl ?_
  simp only [AbrReader.skip, AbrReader.mk.injEq, true_and]
  push_cast; ring

/-! ### Round-trip lemmas for the run-length decoder -/

theorem encSample_length (bpp v : ℕ) (hbpp : bpp = 1 ∨ bpp = 2) :
    (encSample bpp v).length = bpp := by
  rcases hbpp with h | h <;> subst h <;> simp [encSample]

theorem encChunks_cons (bpp : ℕ) (c : RleChunk) (cs : List RleChunk) :
    encChunks bpp (c :: cs) = encChunk bpp c ++ encChunks bpp cs := by
  simp [encChunks]

theorem length_le_encChunks (bpp : ℕ) (cs : List RleChunk) :
    cs.length ≤ (encChunks bpp cs).length := by
  induction cs with
  | nil => simp [encChunks]
  | cons c cs ih =>
    rw [encChunks_cons]
    have : 1 ≤ (encChunk bpp c).length := by cases c <;> simp [encChunk]
    simp only [List.length_cons, List.length_append]
    omega

theorem readSample_enc (bpp v : ℕ) (hbpp : bpp = 1 ∨ bpp = 2) {data : List ℕ} {m : ℕ}
    {rest : List ℕ} (hdrop : data.drop m = encSample bpp v ++ rest) :
    readSample bpp ⟨data, (m : ℚ)⟩ = (v, ⟨data, ((m + bpp : ℕ) : ℚ)⟩) := by
  rcases hbpp with h | h <;> subst h
  · simp only [encSample, if_neg (by norm_num : ¬ (1 : ℕ) = 2), List.cons_append,
      List.nil_append] at hdrop
    have h0 : data.getD m 0 = v := getD_of_drop hdrop
    rw [readSample, if_neg (by norm_num : ¬ (1 : ℕ) = 2), readUint8_natCast, h0]
  · simp only [encSample, if_pos rfl, List.cons_append, List.nil_append] at hdrop
    have h0 : data.getD m 0 = v := getD_of_drop hdrop
    have h1 : data.getD (m + 1) 0 = 0 := getD_of_drop (drop_succ_of_drop hdrop)
    rw [readSample]
    simp only [if_pos rfl, readUint16_natCast, h0, h1, Nat.add_zero]
    simp [Nat.mul_div_cancel_left v (by norm_num : 0 < 256)]

theorem flatten_encSample_length (bpp : ℕ) (hbpp : bpp = 1 ∨ bpp = 2) (l : List ℕ) :
    ((l.map (encSample bpp)).flatten).length = bpp * l.length := by
  induction l with
  | nil => simp
  | cons a t ih =>
    simp only [List.map_cons, List.flatten_cons, List.length_append, ih,
      encSample_length bpp a hbpp, List.length_cons]
    ring

theorem readLits_enc (bpp total : ℕ) (hbpp : bpp = 1 ∨ bpp = 2) (data : List ℕ) :
    ∀ (l : List ℕ) (m : ℕ) (acc rest : List ℕ),
      data.drop m = (l.map (encSample bpp)).flatten ++ rest →
      acc.length + l.length ≤ total →
      readLits bpp total l.length ⟨data, (m : ℚ)⟩ acc =
        (acc ++ l, ⟨data, ((m + bpp * l.length : ℕ) : ℚ)⟩) := by
  intro l
  induction l with
  | nil => intro m acc rest _ _; simp [readLits]
  | cons v t ih =>
    intro m acc rest hdrop hle
    have hdrop2 : data.drop m = encSample bpp v ++ ((t.map (encSample bpp)).flatten ++ rest) := by
      simpa [List.append_assoc] using hdrop
    have hnext : data.drop (m + bpp) = (t.map (encSample bpp)).flatten ++ rest := by
      have := drop_app_of_drop hdrop2
      rwa [encSample_length bpp v hbpp] at this
    rw [show (v :: t).length = t.length + 1 from rfl, readLits,
      if_neg (by simp only [List.length_cons] at hle; omega)]
    simp only [readSample_enc bpp v hbpp hdrop2]
    rw [ih (m + bpp) (acc ++ [v]) rest hnext (by simp only [List.length_append,
      List.length_cons, List.length_nil] at hle ⊢; omega)]
    refine Prod.ext ?_ ?_
    · simp
    · simp only [AbrReader.mk.injEq, true_and]
      push_cast; ring

/-- The control loop of the decoder consumes a well-formed chunk stream
whose payload exactly fills the remaining output. -/
theorem rleLoop_enc (bpp total : ℕ) (hbpp : bpp = 1 ∨ bpp = 2) (data : List ℕ) :
    ∀ (cs : List RleChunk) (fuel m : ℕ) (acc : List ℕ),
      (∀ c ∈ cs, chunkOK c) →
      data.drop m = encChunks bpp cs →
      acc.length + (chunksPayload cs).length = total →
      cs.length ≤ fuel →
      (rleLoop bpp total fuel ⟨data, (m : ℚ)⟩ acc).1 = acc ++ chunksPayload cs := by
  intro cs
  induction cs with
  | nil =>
    intro fuel m acc _ _ hlen _
    simp only [chunksPayload, List.length_nil, Nat.add_zero] at hlen
    cases fuel with
    | zero => simp [rleLoop, chunksPayload]
    | succ f =>
      rw [rleLoop, if_pos (le_of_eq hlen.symm)]
      simp [chunksPayload]
  | cons c cs ih =>
    intro fuel m acc hwf hdrop hlen hfuel
    cases fuel with
    | zero => simp at hfuel
    | succ f =>
      rw [encChunks_cons] at hdrop
      have hfuel2 : cs.length ≤ f := by simpa using hfuel
      have hwf2 : ∀ d ∈ cs, chunkOK d := fun d hd => hwf d (List.mem_cons_of_mem c hd)
      rw [rleLoop]
      by_cases htot : total ≤ acc.length
      · rw [if_pos htot]
        have hnil : chunksPayload (c :: cs) = [] :=
          List.length_eq_zero.mp (by omega)
        rw [hnil, List.append_nil]
      · rw [if_neg htot]
        have hne : encChunk bpp c ++ encChunks bpp cs ≠ [] := by
          cases c <;> simp [encChunk]
        have hmlt : m < data.length := by
          by_contra hge
          rw [List.drop_eq_nil_of_le (le_of_not_lt hge)] at hdrop
          exact hne hdrop.symm
        have hrem : ¬ ((AbrReader.mk data (m : ℚ)).remaining < 1) := by
          rw [remaining_natCast_lt]
          intro hcon
          have : (m : ℚ) + 1 ≤ (data.length : ℚ) := by exact_mod_cast hmlt
          linarith
        rw [if_neg hrem]
        cases c with
        | sent =>
          have hdropc : data.drop m = 128 :: encChunks bpp cs := by
            simpa [encChunk] using hdrop
          have hbyte : data.getD m 0 = 128 := getD_of_drop hdropc
          have hnext : data.drop (m + 1) = encChunks bpp cs := drop_succ_of_drop hdropc
          simp only [readInt8_natCast, hbyte]
          rw [if_pos (by norm_num : 128 ≤ 128),
            if_neg (by norm_num : ¬ (0 : ℤ) ≤ ((128 : ℕ) : ℤ) - 256),
            if_neg (by norm_num : ¬ (-128 : ℤ) < ((128 : ℕ) : ℤ) - 256)]
          rw [show chunksPayload (.sent :: cs) = chunksPayload cs from rfl]
          exact ih f (m + 1) acc hwf2 hnext (by simpa [chunksPayload] using hlen) hfuel2
        | rep k v =>
          obtain ⟨hk2, hk128, hv⟩ := hwf _ (List.mem_cons_self _ _)
          have hdropc : data.drop m = (257 - k) :: (encSample bpp v ++ encChunks bpp cs) := by
            simpa [encChunk] using hdrop
          have hbyte : data.getD m 0 = 257 - k := getD_of_drop hdropc
          have hnext : data.drop (m + 1) = encSample bpp v ++ encChunks bpp cs :=
            drop_succ_of_drop hdropc
          have hnext2 : data.drop (m + 1 + bpp) = encChunks bpp cs := by
            have h2 := drop_app_of_drop hnext
            rwa [encSample_length bpp v hbpp] at h2
          have hlen2 : acc.length + (k + (chunksPayload cs).length) = total := by
            simpa [chunksPayload] using hlen
          simp only [readInt8_natCast, hbyte]
          rw [if_pos (show 128 ≤ 257 - k by omega),
            show ((257 - k : ℕ) : ℤ) - 256 = 1 - (k : ℤ) by omega,
            if_neg (show ¬ (0 : ℤ) ≤ 1 - (k : ℤ) by omega),
            if_pos (show (-128 : ℤ) < 1 - (k : ℤ) by omega)]
          simp only [readSample_enc bpp v hbpp hnext]
          rw [show (1 - (1 - (k : ℤ))).toNat = k by omega,
            show min k (total - acc.length) = k by omega]
          rw [show chunksPayload (.rep k v :: cs) = List.replicate k v ++ chunksPayload cs
            from rfl, ← List.append_assoc]
          exact ih f (m + 1 + bpp) (acc ++ List.replicate k v) hwf2 hnext2
            (by simp only [List.length_append, List.length_replicate]; omega) hfuel2
        | lits l =>
          obtain ⟨hl1, hl128, hlb⟩ := hwf _ (List.mem_cons_self _ _)
          have hdropc : data.drop m =
              (l.length - 1) :: ((l.map (encSample bpp)).flatten ++ encChunks bpp cs) := by
            simpa [encChunk] using hdrop
          have hbyte : data.getD m 0 = l.length - 1 := getD_of_drop hdropc
          have hnext : data.drop (m + 1) = (l.map (encSample bpp)).flatten ++ encChunks bpp cs :=
            drop_succ_of_drop hdropc
          have hnext2 : data.drop (m + 1 + bpp * l.length) = encChunks bpp cs := by
            have h2 := drop_app_of_drop hnext
            rwa [flatten_encSample_length bpp hbpp l] at h2
          have hlen2 : acc.length + (l.length + (chunksPayload cs).length) = total := by
            simpa [chunksPayload] using hlen
          simp only [readInt8_natCast, hbyte]
          rw [if_neg (show ¬ 128 ≤ l.length - 1 by omega),
            if_pos (Int.natCast_nonneg (l.length - 1)), Int.toNat_natCast,
            show l.length - 1 + 1 = l.length by omega]
          simp only [readLits_enc bpp total hbpp data l (m + 1) acc (encChunks bpp cs) hnext
            (by omega)]
          rw [show chunksPayload (.lits l :: cs) = l ++ chunksPayload cs from rfl,
            ← List.append_assoc]
          exact ih f (m + 1 + bpp * l.length) (acc ++ l) hwf2 hnext2
            (by simp only [List.length_append]; omega) hfuel2

/-- Whole-decoder round trip over an encoded chunk stream whose payload
exactly fills the output, for any depth (the decoder reads two-byte
samples at depth 16 and single bytes at every other depth). -/
theorem readRlePixels_enc (cs : List RleChunk) (hdr : List ℕ) (width height depth : ℕ)
    (hwf : ∀ c ∈ cs, chunkOK c)
    (hh : hdr.length = 2 * height)
    (hwh : width * height = (chunksPayload cs).length) :
    (readRlePixels ⟨hdr ++ encChunks (if depth = 16 then 2 else 1) cs, 0⟩
        width height depth).1 = chunksPayload cs := by
  have hbpp : (if depth = 16 then 2 else 1) = 1 ∨ (if depth = 16 then 2 else 1) = 2 := by
    by_cases h : depth = 16 <;> simp [h]
  set bpp := if depth = 16 then 2 else 1 with hbppdef
  set data := hdr ++ encChunks bpp cs with hdatadef
  have hdata : data.drop (2 * height) = encChunks bpp cs := by
    rw [hdatadef, ← hh, List.drop_left]
  have hfuel : cs.length ≤ data.length + 1 :=
    le_trans (length_le_encChunks bpp cs) (by simp [hdatadef]; omega)
  have hloop := rleLoop_enc bpp (width * height) hbpp data cs (data.length + 1)
    (2 * height) [] hwf hdata (by simpa using hwh.symm) hfuel
  have hskip : AbrReader.skip ⟨data, 0⟩ (2 * (height : ℚ)) = ⟨data, ((2 * height : ℕ) : ℚ)⟩ := by
    simp only [AbrReader.skip, AbrReader.mk.injEq, true_and]
    push_cast; ring
  simp only [readRlePixels, hskip, hloop, List.nil_append]
  rw [show width * height - (chunksPayload cs).length = 0 by omega]
  simp

/-- C2: decoding a PackBits-style encoded stream (literal runs, repeat
runs and skipped -128 sentinels), preceded by per-scanline length
headers, for width times height equal to the payload length, reproduces
the encoded byte sequence exactly, at depth 8 and at depth 16 (samples
big-endian, value in the high byte). -/
theorem rle_roundTrip (cs : List RleChunk) (hdr : List ℕ) (width height depth : ℕ)
    (_hdepth : depth = 8 ∨ depth = 16)
    (hwf : ∀ c ∈ cs, chunkOK c)
    (hh : hdr.length = 2 * height)
    (hwh : width * height = (chunksPayload cs).length) :
    (readRlePixels ⟨hdr ++ encChunks (if depth = 16 then 2 else 1) cs, 0⟩
        width height depth).1 = chunksPayload cs :=
  readRlePixels_enc cs hdr width height depth hwf hh hwh

theorem rle_roundTrip_witness :
    (readRlePixels ⟨[0, 0, 1, 1, 2, 255, 7, 128], 0⟩ 4 1 8).1 = [1, 2, 7, 7] ∧
    (readRlePixels ⟨[0, 0, 1, 1, 0, 2, 0, 255, 7, 0, 128], 0⟩ 4 1 16).1 = [1, 2, 7, 7] := by
  constructor
  · have h := rle_roundTrip [.lits [1, 2], .rep 2 7, .sent] [0, 0] 4 1 8 (Or.inl rfl)
      (by decide) (by norm_num) (by decide)
    have e1 : ([0, 0] ++ encChunks (if (8 : ℕ) = 16 then 2 else 1)
        [RleChunk.lits [1, 2], .rep 2 7, .sent]) = [0, 0, 1, 1, 2, 255, 7, 128] := by decide
    rw [← e1, h]; decide
  · have h := rle_roundTrip [.lits [1, 2], .rep 2 7, .sent] [0, 0] 4 1 16 (Or.inr rfl)
      (by decide) (by norm_num) (by decide)
    have e1 : ([0, 0] ++ encChunks (if (16 : ℕ) = 16 then 2 else 1)
        [RleChunk.lits [1, 2], .rep 2 7, .sent]) =
        [0, 0, 1, 1, 0, 2, 0, 255, 7, 0, 128] := by decide
    rw [← e1, h]; decide

/-- C7 counterexample: the claim says that at a depth other than 8 or 16
both decode paths fill the output with 255, but the run-length path
decodes such depths as 8-bit data: at depth 32 this one-literal stream
decodes to byte 7, not 255. -/
theorem readRlePixels_depth32_decodes :
    (readRlePixels ⟨[0, 0, 0, 7], 0⟩ 1 1 32).1 = [7] ∧ (7 : ℕ) ≠ 255 := by
  constructor
  · have h := readRlePixels_enc [RleChunk.lits [7]] [0, 0] 1 1 32 (by decide)
      (by norm_num) (by decide)
    have e1 : ([0, 0] ++ encChunks (if (32 : ℕ) = 16 then 2 else 1) [RleChunk.lits [7]]) =
        [0, 0, 0, 7] := by decide
    rw [← e1, h]; decide
  · decide

/-- C3: parseAbr on a buffer of at least 4 bytes reads the big-endian
16-bit version and routes 1 and 2 to the legacy decoder, 6 through 10 to
the resource-block decoder (followed by the descriptor merge when
presets were found), and fails with the unsupported-version error on
every other version; a buffer shorter than 4 bytes fails with the
truncated-input error before any dispatch. -/
theorem parseAbr_dispatch (buffer : List ℕ) :
    (buffer.length < 4 → parseAbr buffer = .error .tooSmall) ∧
    (4 ≤ buffer.length →
      ∀ version, version = 256 * buffer.getD 0 0 + buffer.getD 1 0 →
      ((version = 1 ∨ version = 2) →
        parseAbr buffer = .ok (parseAbrV1V2 ⟨buffer, ((2 : ℕ) : ℚ)⟩)) ∧
      (6 ≤ version ∧ version ≤ 10 →
        parseAbr buffer = .ok
          (if (parseAbrV6Plus ⟨buffer, ((2 : ℕ) : ℚ)⟩).2.isEmpty
           then (parseAbrV6Plus ⟨buffer, ((2 : ℕ) : ℚ)⟩).1
           else mergeDescriptorDynamics (parseAbrV6Plus ⟨buffer, ((2 : ℕ) : ℚ)⟩).1
             (parseAbrV6Plus ⟨buffer, ((2 : ℕ) : ℚ)⟩).2)) ∧
      (¬ (version = 1 ∨ version = 2) → ¬ (6 ≤ version ∧ version ≤ 10) →
        parseAbr buffer = .error (.unsupportedVersion version))) := by
  have hmk : (⟨buffer, (0 : ℚ)⟩ : AbrReader) = ⟨buffer, ((0 : ℕ) : ℚ)⟩ := by norm_num
  constructor
  · intro h
    have hc : (AbrReader.remaining ⟨buffer, 0⟩ < 4) := by
      simp only [AbrReader.remaining]
      have : (buffer.length : ℚ) < 4 := by exact_mod_cast h
      linarith
    rw [parseAbr, if_pos hc]
  · intro hlen version hv
    have hc : ¬ (AbrReader.remaining ⟨buffer, 0⟩ < 4) := by
      simp only [AbrReader.remaining, not_lt]
      have : (4 : ℚ) ≤ (buffer.length : ℚ) := by exact_mod_cast hlen
      linarith
    have hval : (readUint16 ⟨buffer, ((0 : ℕ) : ℚ)⟩) =
        (256 * buffer.getD 0 0 + buffer.getD 1 0, ⟨buffer, ((2 : ℕ) : ℚ)⟩) := by
      rw [readUint16_natCast]
    refine ⟨?_, ?_, ?_⟩
    · intro h
      rw [parseAbr, if_neg hc, hmk, hval]
      rw [if_pos (by rw [← hv] at *; exact h)]
    · intro h
      rw [parseAbr, if_neg hc, hmk, hval]
      rw [if_neg (by rw [← hv]; omega), if_pos (by rw [← hv]; omega)]
    · intro h1 h2
      rw [parseAbr, if_neg hc, hmk, hval]
      rw [if_neg (by rw [← hv]; exact h1), if_neg (by rw [← hv]; exact h2), hv]

theorem parseAbr_dispatch_witness :
    parseAbr [0, 2] = .error .tooSmall ∧
    parseAbr [0, 2, 0, 0] = .ok (parseAbrV1V2 ⟨[0, 2, 0, 0], ((2 : ℕ) : ℚ)⟩) ∧
    parseAbr [0, 6, 0, 0] = .ok
      (if (parseAbrV6Plus ⟨[0, 6, 0, 0], ((2 : ℕ) : ℚ)⟩).2.isEmpty
       then (parseAbrV6Plus ⟨[0, 6, 0, 0], ((2 : ℕ) : ℚ)⟩).1
       else mergeDescriptorDynamics (parseAbrV6Plus ⟨[0, 6, 0, 0], ((2 : ℕ) : ℚ)⟩).1
         (parseAbrV6Plus ⟨[0, 6, 0, 0], ((2 : ℕ) : ℚ)⟩).2) ∧
    parseAbr [0, 3, 0, 0] = .error (.unsupportedVersion 3) ∧
    parseAbr [0, 11, 0, 0] = .error (.unsupportedVersion 11) := by
  refine ⟨?_, ?_, ?_, ?_, ?_⟩
  · exact (parseAbr_dispatch [0, 2]).1 (by norm_num)
  · exact (((parseAbr_dispatch [0, 2, 0, 0]).2 (by norm_num) 2 (by decide)).1 (Or.inr rfl))
  · exact (((parseAbr_dispatch [0, 6, 0, 0]).2 (by norm_num) 6 (by decide)).2.1 (by omega))
  · exact (((parseAbr_dispatch [0, 3, 0, 0]).2 (by norm_num) 3 (by decide)).2.2
      (by omega) (by omega))
  · exact (((parseAbr_dispatch [0, 11, 0, 0]).2 (by norm_num) 11 (by decide)).2.2
      (by omega) (by omega))

/-! ### Identifier-merge machinery -/

theorem modifyAt_getD_self {α : Type} (l : List α) (i : ℕ) (f : α → α) (d : α)
    (h : i < l.length) : (modifyAt l i f).getD i d = f (l.getD i d) := by
  induction l generalizing i with
  | nil => simp at h
  | cons a t ih =>
    cases i with
    | zero => rfl
    | succ n => exact ih n (by simpa using h)

theorem modifyAt_getD_ne {α : Type} (l : List α) (i j : ℕ) (f : α → α) (d : α)
    (h : j ≠ i) : (modifyAt l i f).getD j d = l.getD j d := by
  induction l generalizing i j with
  | nil => rfl
  | cons a t ih =>
    cases i with
    | zero =>
      cases j with
      | zero => exact absurd rfl h
      | succ n => rfl
    | succ n =>
      cases j with
      | zero => rfl
      | succ m => exact ih n m (by omega)

theorem buildUuidMapFrom_mem : ∀ (bs : List AbrRawBrush) (i0 : ℕ) (k : String) (j : ℕ),
    (k, j) ∈ buildUuidMapFrom i0 bs →
    i0 ≤ j ∧ j - i0 < bs.length ∧ ∀ d, (bs.getD (j - i0) d).brushId = k := by
  intro bs
  induction bs with
  | nil => intro i0 k j h; simp [buildUuidMapFrom] at h
  | cons b t ih =>
    intro i0 k j h
    rw [buildUuidMapFrom] at h
    rcases List.mem_append.mp h with h1 | h2
    · by_cases hb : b.brushId ≠ ""
      · rw [if_pos hb] at h1
        simp only [List.mem_singleton, Prod.mk.injEq] at h1
        obtain ⟨hk, hj⟩ := h1
        subst hj
        exact ⟨le_refl _, by simp, fun d => by simp [hk]⟩
      · rw [if_neg hb] at h1
        simp at h1
    · obtain ⟨hle, hlt, hget⟩ := ih (i0 + 1) k j h2
      refine ⟨by omega, by simp; omega, fun d => ?_⟩
      rw [show j - i0 = (j - (i0 + 1)) + 1 by omega]
      exact hget d

theorem mapGet_buildUuidMap {bs : List AbrRawBrush} {k : String} {i : ℕ}
    (h : mapGet (buildUuidMap bs) k = some i) :
    i < bs.length ∧ ∀ d, (bs.getD i d).brushId = k := by
  unfold mapGet at h
  obtain ⟨p, hfind, hp2⟩ := Option.map_eq_some'.mp h
  have hmem : p ∈ (buildUuidMap bs).reverse := List.mem_of_find?_eq_some hfind
  have hpred : p.1 = k := by simpa using List.find?_some hfind
  rw [List.mem_reverse] at hmem
  obtain ⟨p1, p2⟩ := p
  dsimp only at hpred hp2
  subst hpred; subst hp2
  have hspec := buildUuidMapFrom_mem bs 0 p1 p2 hmem
  exact ⟨by omega, fun d => by simpa using hspec.2.2 d⟩

/-- C4 counterexample: the claim says a matched sample's display name is
overwritten from the descriptor, but the merge only overwrites for a
truthy (nonempty) name string: with a matching identifier and an
empty-string name field the dynamics are attached yet the name is left as
it was. -/
theorem mergeStep_keeps_name_on_empty :
    ((mergeDescriptorDynamics
        [{ name := "Brush 1", brushId := "abc", width := 10, height := 10, pixels := [],
           spacing := 0.25, diameter := 10, dynamics := none }]
        [DescValue.obj [("Brsh", DescValue.obj [("sampledData", DescValue.text "abc")]),
           ("Nm  ", DescValue.text "")]]).getD 0 emptyRawBrush).name = "Brush 1" ∧
    ((mergeDescriptorDynamics
        [{ name := "Brush 1", brushId := "abc", width := 10, height := 10, pixels := [],
           spacing := 0.25, diameter := 10, dynamics := none }]
        [DescValue.obj [("Brsh", DescValue.obj [("sampledData", DescValue.text "abc")]),
           ("Nm  ", DescValue.text "")]]).getD 0 emptyRawBrush).dynamics ≠ none ∧
    "Brush 1" ≠ "" := by
  have htarget : presetTarget
      (buildUuidMap
        [{ name := "Brush 1", brushId := "abc", width := 10, height := 10, pixels := [],
           spacing := 0.25, diameter := 10, dynamics := none }])
      (DescValue.obj [("Brsh", DescValue.obj [("sampledData", DescValue.text "abc")]),
         ("Nm  ", DescValue.text "")]) = some 0 := by decide
  refine ⟨?_, ?_, by decide⟩ <;>
  · simp only [mergeDescriptorDynamics, List.foldl_cons, List.foldl_nil, mergeStep, htarget]
    simp only [modifyAt]
    rw [show dGet ((asObj (some (DescValue.obj [("Brsh", DescValue.obj
      [("sampledData", DescValue.text "abc")]), ("Nm  ", DescValue.text "")]))).getD [])
      "Nm  " = some (DescValue.text "") from rfl]
    split <;> simp

/-- C4 amended: a descriptor preset that links to a sample (its Brsh
sub-object's identifier, stripped of NULs and trimmed, found in the
sample map) overwrites that sample's display name when the descriptor
carries a nonempty name, attaches the normalised dynamics, and replaces
the sample's spacing when the descriptor spacing is positive, leaving
every other sample untouched; the map lookup resolves exactly to a sample
with that identifier; and presets that link to no sample change nothing. -/
theorem mergeDescriptorDynamics_linking :
    (∀ (bs : List AbrRawBrush) (p : DescValue) (i : ℕ) (d : AbrRawBrush),
      presetTarget (buildUuidMap bs) p = some i →
      i < bs.length ∧
      ((mergeDescriptorDynamics bs [p]).getD i d).dynamics =
        some (descriptorToDynamics ((asObj (some p)).getD [])) ∧
      ((mergeDescriptorDynamics bs [p]).getD i d).name =
        (match dGet ((asObj (some p)).getD []) "Nm  " with
         | some (.text nm) => if nm = "" then (bs.getD i d).name else stripNulls nm
         | _ => (bs.getD i d).name) ∧
      ((mergeDescriptorDynamics bs [p]).getD i d).spacing =
        (if 0 < untfValue (dGet ((asObj (dGet ((asObj (some p)).getD []) "Brsh")).getD [])
              "Spcn") true
         then untfValue (dGet ((asObj (dGet ((asObj (some p)).getD []) "Brsh")).getD [])
              "Spcn") true
         else (bs.getD i d).spacing) ∧
      (∀ j, j ≠ i → (mergeDescriptorDynamics bs [p]).getD j d = bs.getD j d)) ∧
    (∀ (bs : List AbrRawBrush) (k : String) (i : ℕ),
      mapGet (buildUuidMap bs) k = some i → ∀ d, (bs.getD i d).brushId = k) ∧
    (∀ (bs : List AbrRawBrush) (ps : List DescValue),
      (∀ p ∈ ps, presetTarget (buildUuidMap bs) p = none) →
      mergeDescriptorDynamics bs ps = bs) := by
  refine ⟨?_, ?_, ?_⟩
  · intro bs p i d hlink
    have hi : i < bs.length := by
      unfold presetTarget at hlink
      split at hlink
      · exact absurd hlink (by simp)
      · split at hlink
        · exact absurd hlink (by simp)
        · split at hlink
          · split at hlink
            · exact absurd hlink (by simp)
            · exact (mapGet_buildUuidMap hlink).1
          · exact absurd hlink (by simp)
    have hfold : mergeDescriptorDynamics bs [p] = mergeStep (buildUuidMap bs) bs p := by
      simp [mergeDescriptorDynamics]
    rw [hfold]
    simp only [mergeStep, hlink]
    refine ⟨hi, ?_, ?_, ?_, ?_⟩
    · rw [modifyAt_getD_self _ _ _ _ hi]
      split <;> rfl
    · rw [modifyAt_getD_self _ _ _ _ hi]
      rcases hnm : dGet ((asObj (some p)).getD []) "Nm  " with _ | v
      · split <;> rfl
      · cases v <;> try (split <;> rfl)
        rename_i nm
        by_cases hne : nm = "" <;> split <;> simp [hne]
    · rw [modifyAt_getD_self _ _ _ _ hi]
      rcases hnm : dGet ((asObj (some p)).getD []) "Nm  " with _ | v
      · split <;> rfl
      · cases v <;> try (split <;> rfl)
        rename_i nm
        by_cases hne : nm = "" <;> split <;> simp [hne]
    · intro j hj
      exact modifyAt_getD_ne _ _ _ _ _ hj
  · intro bs k i h d
    exact (mapGet_buildUuidMap h).2 d
  · intro bs ps h
    induction ps with
    | nil => rfl
    | cons p ps ih =>
      have h1 : mergeStep (buildUuidMap bs) bs p = bs := by
        simp only [mergeStep, h p (List.mem_cons_self _ _)]
      have h2 : mergeDescriptorDynamics bs (p :: ps) = mergeDescriptorDynamics bs ps := by
        simp only [mergeDescriptorDynamics, List.foldl_cons, h1]
      rw [h2]
      exact ih (fun q hq => h q (List.mem_cons_of_mem _ hq))

theorem mergeDescriptorDynamics_linking_witness :
    ((mergeDescriptorDynamics
        [{ name := "Brush 1", brushId := "abc", width := 10, height := 10, pixels := [],
           spacing := 0.25, diameter := 10, dynamics := none }]
        [DescValue.obj [("Brsh", DescValue.obj [("sampledData", DescValue.text "abc\x00\x00")]),
           ("Nm  ", DescValue.text "NewName\x00")]]).getD 0 emptyRawBrush).name = "NewName" ∧
    ((mergeDescriptorDynamics
        [{ name := "Brush 1", brushId := "abc", width := 10, height := 10, pixels := [],
           spacing := 0.25, diameter := 10, dynamics := none }]
        [DescValue.obj [("Brsh", DescValue.obj [("sampledData", DescValue.text "abc\x00\x00")]),
           ("Nm  ", DescValue.text "NewName\x00")]]).getD 0 emptyRawBrush).dynamics =
      some (descriptorToDynamics [("Brsh", DescValue.obj
        [("sampledData", DescValue.text "abc\x00\x00")]), ("Nm  ", DescValue.text "NewName\x00")]) ∧
    (mergeDescriptorDynamics
        [{ name := "Brush 1", brushId := "abc", width := 10, height := 10, pixels := [],
           spacing := 0.25, diameter := 10, dynamics := none }]
        [DescValue.obj [("Brsh", DescValue.obj [("sampledData", DescValue.text "xyz")]),
           ("Nm  ", DescValue.text "Other")]]) =
      [{ name := "Brush 1", brushId := "abc", width := 10, height := 10, pixels := [],
         spacing := 0.25, diameter := 10, dynamics := none }] := by
  have h := mergeDescriptorDynamics_linking
  have hw := h.1
    [{ name := "Brush 1", brushId := "abc", width := 10, height := 10, pixels := [],
       spacing := 0.25, diameter := 10, dynamics := none }]
    (DescValue.obj [("Brsh", DescValue.obj [("sampledData", DescValue.text "abc\x00\x00")]),
       ("Nm  ", DescValue.text "NewName\x00")]) 0 emptyRawBrush (by decide)
  refine ⟨?_, ?_, ?_⟩
  · rw [hw.2.2.1]
    decide
  · exact hw.2.1
  · exact h.2.2
      [{ name := "Brush 1", brushId := "abc", width := 10, height := 10, pixels := [],
         spacing := 0.25, diameter := 10, dynamics := none }]
      [DescValue.obj [("Brsh", DescValue.obj [("sampledData", DescValue.text "xyz")]),
         ("Nm  ", DescValue.text "Other")]]
      (by intro q hq; simp at hq; subst hq; decide)

/-! ### Legacy-entry isolation -/

/-- The legacy sampled-entry decoder, written out over the entry's byte
layout: 4 skipped bytes, a 16-bit spacing, a top/left/bottom/right
bounding box, then depth, compression and the pixel channel. -/
theorem parseV1V2Entry_unfold (data : List ℕ) (n i : ℕ) :
    parseV1V2Entry ⟨data, (n : ℚ)⟩ i =
      (if 0 < i32At data (n + 18) - i32At data (n + 10) ∧
          0 < i32At data (n + 14) - i32At data (n + 6) ∧
          i32At data (n + 18) - i32At data (n + 10) ≤ 5000 ∧
          i32At data (n + 14) - i32At data (n + 6) ≤ 5000 then
        some { name := "Brush " ++ toString (i + 1), brushId := "",
               width := i32At data (n + 18) - i32At data (n + 10),
               height := i32At data (n + 14) - i32At data (n + 6),
               pixels := (if u8At data (n + 24) = 0 then
                   (readRawPixels ⟨data, ((n + 25 : ℕ) : ℚ)⟩
                     (i32At data (n + 18) - i32At data (n + 10)).toNat
                     (i32At data (n + 14) - i32At data (n + 6)).toNat (u16At data (n + 22))).1
                 else
                   (readRlePixels ⟨data, ((n + 25 : ℕ) : ℚ)⟩
                     (i32At data (n + 18) - i32At data (n + 10)).toNat
                     (i32At data (n + 14) - i32At data (n + 6)).toNat (u16At data (n + 22))).1),
               spacing := (u16At data (n + 4) : ℝ) / 100,
               diameter := max (i32At data (n + 18) - i32At data (n + 10))
                   (i32At data (n + 14) - i32At data (n + 6)),
               dynamics := none }
      else none) := by
  have hskip : AbrReader.skip ⟨data, (n : ℚ)⟩ 4 = ⟨data, ((n + 4 : ℕ) : ℚ)⟩ := by
    simp only [AbrReader.skip, AbrReader.mk.injEq, true_and]
    push_cast; ring
  have hi32 : ∀ j : ℕ, (if 2 ^ 31 ≤ u32At data j then (u32At data j : ℤ) - 2 ^ 32
      else (u32At data j : ℤ)) = i32At data j := by
    intro j
    rw [i32At, readInt32_natCast]
  simp only [parseV1V2Entry, hskip, readUint16_natCast, readInt32_natCast, readUint8_natCast,
    u16At, u8At, Nat.add_assoc]
  norm_num
  norm_num at hi32
  simp only [hi32]

/-- C5: in the legacy decoder, a type-2 entry whose declared bounding box
fails the sanity guard (width or height nonpositive or above 5000)
contributes no brush, and the loop then continues at the entry's declared
end offset, exactly as it does for a well-formed entry that contributes
one brush — so a following well-formed entry still decodes. -/
theorem v1v2_entry_isolation (data : List ℕ) (m k i : ℕ) (acc : List AbrRawBrush)
    (hrem : m + 6 ≤ data.length)
    (htype : u16At data m = 2)
    (hpos : 0 < u32At data (m + 2)) :
    (parseV1V2Entry ⟨data, ((m + 6 : ℕ) : ℚ)⟩ i = none ↔
      ¬ (0 < i32At data (m + 24) - i32At data (m + 16) ∧
         0 < i32At data (m + 20) - i32At data (m + 12) ∧
         i32At data (m + 24) - i32At data (m + 16) ≤ 5000 ∧
         i32At data (m + 20) - i32At data (m + 12) ≤ 5000)) ∧
    (parseV1V2Entry ⟨data, ((m + 6 : ℕ) : ℚ)⟩ i = none →
      v1v2Loop (k + 1) i ⟨data, (m : ℚ)⟩ acc =
        v1v2Loop k (i + 1) ⟨data, ((m + 6 + u32At data (m + 2) : ℕ) : ℚ)⟩ acc) ∧
    (∀ b, parseV1V2Entry ⟨data, ((m + 6 : ℕ) : ℚ)⟩ i = some b →
      v1v2Loop (k + 1) i ⟨data, (m : ℚ)⟩ acc =
        v1v2Loop k (i + 1) ⟨data, ((m + 6 + u32At data (m + 2) : ℕ) : ℚ)⟩ (acc ++ [b])) := by
  have hrem6 : ¬ (AbrReader.remaining ⟨data, (m : ℚ)⟩ < 6) := by
    rw [remaining_natCast_lt]
    intro hcon
    have : ((m + 6 : ℕ) : ℚ) ≤ (data.length : ℚ) := by exact_mod_cast hrem
    push_cast at this
    linarith
  have hu16 : u16At data m = 256 * data.getD m 0 + data.getD (m + 1) 0 := by
    rw [u16At, readUint16_natCast]
  have hu : u32At data (m + 2) = 16777216 * data.getD (m + 2) 0 +
      65536 * data.getD (m + 2 + 1) 0 + 256 * data.getD (m + 2 + 2) 0 +
      data.getD (m + 2 + 3) 0 := by
    rw [u32At, readUint32_natCast]
  have hstep : ∀ acc2, v1v2Loop (k + 1) i ⟨data, (m : ℚ)⟩ acc2 =
      v1v2Loop k (i + 1) ⟨data, ((m + 6 + u32At data (m + 2) : ℕ) : ℚ)⟩
        (if u16At data m = 2 ∧ 0 < u32At data (m + 2) then
          (match parseV1V2Entry ⟨data, ((m + 6 : ℕ) : ℚ)⟩ i with
           | some b => acc2 ++ [b]
           | none => acc2)
         else acc2) := by
    intro acc2
    rw [v1v2Loop, if_neg hrem6]
    simp only [readUint16_natCast, readUint32_natCast, AbrReader.seek, natCast_skip,
      show m + 2 + 4 = m + 6 from by omega]
    rw [← hu, ← hu16]
  refine ⟨?_, ?_, ?_⟩
  · rw [parseV1V2Entry_unfold]
    rw [show m + 6 + 18 = m + 24 from by omega, show m + 6 + 10 = m + 16 from by omega,
      show m + 6 + 14 = m + 20 from by omega, show m + 6 + 6 = m + 12 from by omega]
    split_ifs with hguard
    · exact iff_of_false (by simp) (not_not_intro hguard)
    · exact iff_of_true rfl hguard
  · intro hnone
    rw [hstep acc, if_pos ⟨htype, hpos⟩, hnone]
  · intro b hsome
    rw [hstep acc, if_pos ⟨htype, hpos⟩, hsome]

theorem v1v2_entry_isolation_witness :
    parseAbrV1V2
      ⟨[0, 2, 0, 2, 0, 2, 0, 0, 0, 22, 0, 0, 0, 0, 0, 25, 0, 0, 0, 0, 0, 0, 0, 0,
        0, 0, 0, 1, 255, 255, 255, 251, 0, 2, 0, 0, 0, 26, 0, 0, 0, 0, 0, 25, 0, 0, 0, 0,
        0, 0, 0, 0, 0, 0, 0, 1, 0, 0, 0, 1, 0, 8, 0, 200], ((2 : ℕ) : ℚ)⟩ =
      [{ name := "Brush 2", brushId := "", width := 1, height := 1, pixels := [200],
         spacing := ((25 : ℕ) : ℝ) / 100, diameter := 1, dynamics := none }] := by
  set b2 : AbrRawBrush :=
    { name := "Brush 2", brushId := "", width := 1, height := 1, pixels := [200],
      spacing := ((25 : ℕ) : ℝ) / 100, diameter := 1, dynamics := none } with hb2
  set D : List ℕ := [0, 2, 0, 2, 0, 2, 0, 0, 0, 22, 0, 0, 0, 0, 0, 25, 0, 0, 0, 0, 0, 0, 0, 0,
    0, 0, 0, 1, 255, 255, 255, 251, 0, 2, 0, 0, 0, 26, 0, 0, 0, 0, 0, 25, 0, 0, 0, 0,
    0, 0, 0, 0, 0, 0, 0, 1, 0, 0, 0, 1, 0, 8, 0, 200] with hD
  have hcount : readUint16 ⟨D, ((2 : ℕ) : ℚ)⟩ = (2, ⟨D, ((4 : ℕ) : ℚ)⟩) := by
    rw [readUint16_natCast]
    refine Prod.ext (by rw [hD]; decide) rfl
  have h1 := v1v2_entry_isolation D 4 1 0 [] (by rw [hD]; decide)
    (by rw [u16At, readUint16_natCast, hD]; decide)
    (by rw [u32At, readUint32_natCast, hD]; decide)
  have hw1 : i32At D 28 = -5 := by
    rw [i32At, readInt32_natCast, u32At, readUint32_natCast, hD]; decide
  have hw2 : i32At D 20 = 0 := by
    rw [i32At, readInt32_natCast, u32At, readUint32_natCast, hD]; decide
  have hw3 : i32At D 24 = 1 := by
    rw [i32At, readInt32_natCast, u32At, readUint32_natCast, hD]; decide
  have hw4 : i32At D 16 = 0 := by
    rw [i32At, readInt32_natCast, u32At, readUint32_natCast, hD]; decide
  have hnone : parseV1V2Entry ⟨D, ((4 + 6 : ℕ) : ℚ)⟩ 0 = none := by
    rw [h1.1]
    norm_num [hw1, hw2, hw3, hw4]
  have hv6 : u32At D (4 + 2) = 22 := by rw [u32At, readUint32_natCast, hD]; decide
  have step1 := h1.2.1 hnone
  rw [hv6, show (4 : ℕ) + 6 + 22 = 32 from by norm_num] at step1
  have h2 := v1v2_entry_isolation D 32 0 1 [] (by rw [hD]; decide)
    (by rw [u16At, readUint16_natCast, hD]; decide)
    (by rw [u32At, readUint32_natCast, hD]; decide)
  have hx1 : i32At D 56 = 1 := by
    rw [i32At, readInt32_natCast, u32At, readUint32_natCast, hD]; decide
  have hx2 : i32At D 48 = 0 := by
    rw [i32At, readInt32_natCast, u32At, readUint32_natCast, hD]; decide
  have hx3 : i32At D 52 = 1 := by
    rw [i32At, readInt32_natCast, u32At, readUint32_natCast, hD]; decide
  have hx4 : i32At D 44 = 0 := by
    rw [i32At, readInt32_natCast, u32At, readUint32_natCast, hD]; decide
  have hx5 : u8At D 62 = 0 := by rw [u8At, readUint8_natCast, hD]; decide
  have hx6 : u16At D 60 = 8 := by rw [u16At, readUint16_natCast, hD]; decide
  have hx7 : u16At D 42 = 25 := by rw [u16At, readUint16_natCast, hD]; decide
  have hpix : (readRawPixels ⟨D, (63 : ℚ)⟩ 1 1 8).1 = [200] := by
    rw [show (63 : ℚ) = ((63 : ℕ) : ℚ) from by norm_num, readRawPixels]
    simp only [if_pos rfl, readBytes, List.range_succ, List.range_zero, List.nil_append,
      List.map_cons, List.map_nil, AbrReader.byte, toIdx_natCast]
    rw [hD]; decide
  have hsome : parseV1V2Entry ⟨D, ((32 + 6 : ℕ) : ℚ)⟩ 1 = some b2 := by
    rw [show (32 : ℕ) + 6 = 38 from rfl, parseV1V2Entry_unfold, hb2]
    norm_num [hx1, hx2, hx3, hx4, hx5, hx6, hx7]
    exact ⟨by decide, hpix⟩
  have hv34 : u32At D (32 + 2) = 26 := by rw [u32At, readUint32_natCast, hD]; decide
  have step2 := h2.2.2 _ hsome
  rw [hv34, show (32 : ℕ) + 6 + 26 = 64 from by norm_num] at step2
  have final : v1v2Loop 0 2 ⟨D, ((64 : ℕ) : ℚ)⟩ ([] ++ [b2]) = [b2] := rfl
  rw [parseAbrV1V2, hcount]
  exact step1.trans (step2.trans final)

/-- C9: after endStroke, beginStroke at a point resets the stroke state —
lastPosition the point, direction (1,0), accumulated distance 0, active —
and places exactly one stamp at the point, whatever the previous stroke
had accumulated. -/
theorem beginStroke_resets (e : BrushEngine) (x y pressure tiltX tiltY : ℝ) :
    (beginStroke (endStroke e) x y pressure tiltX tiltY).1.stroke =
      { lastX := x, lastY := y, dirX := 1, dirY := 0, distanceAccum := 0, active := true } ∧
    (beginStroke (endStroke e) x y pressure tiltX tiltY).2 =
      [⟨x, y, pressure, tiltX, tiltY⟩] :=
  ⟨rfl, rfl⟩

/-- C6 counterexample: the claim says the tilt multiplier clamps the
magnitude term at 1, but applyController divides the raw magnitude by 90
with no clamp: at tilt (0, 180) with minimum 0 the code yields 2 where
the claimed formula yields 1. -/
theorem applyController_tilt_unclamped :
    applyController ⟨.tilt, 0, 0, 0⟩ 1 0 180 = 2 ∧
    specResolvedMultiplier ⟨.tilt, 0, 0, 0⟩ 1 0 180 = 1 ∧ (2 : ℝ) ≠ 1 := by
  have hs : Real.sqrt ((0 : ℝ) * 0 + 180 * 180) = 180 := by
    rw [show ((0 : ℝ) * 0 + 180 * 180) = 180 ^ 2 by norm_num]
    exact Real.sqrt_sq (by norm_num)
  refine ⟨?_, ?_, by norm_num⟩
  · simp only [applyController, hs]; norm_num
  · simp only [specResolvedMultiplier, hs]; norm_num

/-- C6 amended: the per-stamp multiplier is minimum + (1-minimum) times
pressure under pressure control, minimum + (1-minimum) times the
unclamped tilt magnitude over 90 under tilt control, and exactly 1 under
off, direction, or fade control. -/
theorem applyController_resolution (ctrl : DynamicsController) (pressure tiltX tiltY : ℝ) :
    (ctrl.control = .pressure →
      applyController ctrl pressure tiltX tiltY =
        ctrl.minimum + (1 - ctrl.minimum) * pressure) ∧
    (ctrl.control = .tilt →
      applyController ctrl pressure tiltX tiltY =
        ctrl.minimum + (1 - ctrl.minimum) *
          (Real.sqrt (tiltX * tiltX + tiltY * tiltY) / 90)) ∧
    ((ctrl.control = .off ∨ ctrl.control = .direction ∨ ctrl.control = .fade) →
      applyController ctrl pressure tiltX tiltY = 1) := by
  obtain ⟨c, j, m, f⟩ := ctrl
  cases c <;> simp_all [applyController]

theorem applyController_resolution_witness :
    applyController ⟨.pressure, 0, 0.5, 0⟩ 1 0 0 = 0.5 + (1 - 0.5) * 1 ∧
    applyController ⟨.off, 0, 0.5, 0⟩ 1 0 0 = 1 :=
  ⟨(applyController_resolution ⟨.pressure, 0, 0.5, 0⟩ 1 0 0).1 rfl,
   (applyController_resolution ⟨.off, 0, 0.5, 0⟩ 1 0 0).2.2 (Or.inl rfl)⟩

/-- C7 amended: for a depth other than 8 or 16 only the raw-copy path
fills the width times height output with 255 and advances the cursor by
the span of count samples of depth over 8 bytes each; the run-length path
does not special-case such depths — it decodes them exactly as depth 8. -/
theorem unsupportedDepth_paths (r : AbrReader) (width height depth : ℕ)
    (h8 : depth ≠ 8) (h16 : depth ≠ 16) :
    readRawPixels r width height depth =
      (List.replicate (width * height) 255,
       r.skip (((width * height : ℕ) : ℚ) * ((depth : ℚ) / 8))) ∧
    readRlePixels r width height depth = readRlePixels r width height 8 := by
  constructor
  · simp [readRawPixels, h8, h16]
  · simp [readRlePixels, h16]

theorem unsupportedDepth_paths_witness :
    readRawPixels ⟨[1, 2, 3, 4], 0⟩ 1 1 32 = ([255], ⟨[1, 2, 3, 4], 4⟩) ∧
    readRlePixels ⟨[1, 2, 3, 4], 0⟩ 1 1 32 = readRlePixels ⟨[1, 2, 3, 4], 0⟩ 1 1 8 := by
  have h := unsupportedDepth_paths ⟨[1, 2, 3, 4], 0⟩ 1 1 32 (by decide) (by decide)
  refine ⟨?_, h.2⟩
  rw [h.1]
  norm_num [AbrReader.skip]

/-- C8: the claim (and the controller type's own documented 0-1 ranges)
say jitter and minimum are always clamped to the unit interval, but
neither parseBrVr nor untfValue clamps: a descriptor controller whose
jitter is the plain double 5 and whose minimum is the plain double 2
comes out with those values untouched. -/
theorem parseBrVr_no_clamp :
    (parseBrVr (some [("bVTy", .long 2), ("jitter", .doub 5), ("Mnm ", .doub 2)])).jitter = 5 ∧
    (parseBrVr (some [("bVTy", .long 2), ("jitter", .doub 5), ("Mnm ", .doub 2)])).minimum = 2 ∧
    ¬ ((5 : ℝ) ≤ 1 ∧ (2 : ℝ) ≤ 1) := by
  have h1 : dGet [("bVTy", DescValue.long 2), ("jitter", DescValue.doub 5),
      ("Mnm ", DescValue.doub 2)] "jitter" = some (DescValue.doub 5) := rfl
  have h2 : dGet [("bVTy", DescValue.long 2), ("jitter", DescValue.doub 5),
      ("Mnm ", DescValue.doub 2)] "Mnm " = some (DescValue.doub 2) := rfl
  refine ⟨?_, ?_, by norm_num⟩
  · show untfValue (dGet [("bVTy", DescValue.long 2), ("jitter", DescValue.doub 5),
      ("Mnm ", DescValue.doub 2)] "jitter") true = 5
    rw [h1]; norm_num [untfValue]
  · show untfValue (dGet [("bVTy", DescValue.long 2), ("jitter", DescValue.doub 5),
      ("Mnm ", DescValue.doub 2)] "Mnm ") true = 2
    rw [h2]; norm_num [untfValue]

/-- C10: loadAbrFile keeps exactly the parsed brushes at least 4 pixels
wide and tall whose name is not (case-insensitively) separator, in parse
order, converting each to a tip record; everything else is dropped. -/
theorem loadAbrFile_filters (bs : List AbrRawBrush) (buffer : List ℕ) :
    loadFiltered bs =
      (bs.filter (fun b =>
          !(decide (b.width < 4 ∨ b.height < 4)) && !(isSeparatorName b.name))).map
        (fun raw =>
          { tip := rawBrushToTip raw, dynamics := raw.dynamics,
            presetName := if raw.name ≠ (rawBrushToTip raw).name then some raw.name else none }) ∧
    loadAbrFile buffer = (parseAbr buffer).map loadFiltered := by
  refine ⟨?_, rfl⟩
  induction bs with
  | nil => rfl
  | cons raw rest ih =>
    rw [List.filter_cons]
    by_cases h1 : raw.width < 4 ∨ raw.height < 4
    · simp [loadFiltered, h1, ih]
    · by_cases h2 : isSeparatorName raw.name
      · simp [loadFiltered, h1, h2, ih]
      · simp [loadFiltered, h1, h2, ih]

/-- Each loop iteration of stampWhile advances the traveled distance by one
spacing unit and appends one scatter batch, so it runs floor((segment -
traveled) / spacing) times. -/
theorem stampWhile_spec (cnt : ℕ) (lX lY dx dy seg sp p tx ty : ℝ) (hsp : 1 ≤ sp) :
    ∀ (fuel : ℕ) (tr : ℝ), seg - tr ≤ (fuel : ℝ) * sp →
      (stampWhile cnt lX lY dx dy seg sp p tx ty fuel tr).1.length =
        cnt * (⌊(seg - tr) / sp⌋).toNat ∧
      (stampWhile cnt lX lY dx dy seg sp p tx ty fuel tr).2 =
        tr + ((⌊(seg - tr) / sp⌋).toNat : ℝ) * sp := by
  have hsp0 : (0:ℝ) < sp := lt_of_lt_of_le one_pos hsp
  intro fuel
  induction fuel with
  | zero =>
    intro tr hf
    have hf0 : seg - tr ≤ 0 := by simpa using hf
    have hfl : ⌊(seg - tr) / sp⌋ ≤ 0 :=
      Int.floor_nonpos (div_nonpos_iff.mpr (Or.inr ⟨hf0, hsp0.le⟩))
    have h0 : (⌊(seg - tr) / sp⌋).toNat = 0 := Int.toNat_of_nonpos hfl
    simp [stampWhile, h0]
  | succ f ih =>
    intro tr hf
    simp only [stampWhile]
    by_cases hle : tr + sp ≤ seg
    · rw [if_pos hle]
      have hf2 : seg - (tr + sp) ≤ (f : ℝ) * sp := by
        push_cast at hf ⊢; linarith
      obtain ⟨ihl, ihr⟩ := ih (tr + sp) hf2
      have hfl1 : 1 ≤ ⌊(seg - tr) / sp⌋ := by
        apply Int.le_floor.mpr
        push_cast
        rw [le_div_iff₀ hsp0]
        linarith
      have hstep : ⌊(seg - (tr + sp)) / sp⌋ = ⌊(seg - tr) / sp⌋ - 1 := by
        rw [show (seg - (tr + sp)) / sp = (seg - tr) / sp - ((1:ℤ):ℝ) by
              push_cast; field_simp; ring]
        exact Int.floor_sub_int _ 1
      have hn1 : 1 ≤ (⌊(seg - tr) / sp⌋).toNat := by omega
      have hn2 : (⌊(seg - tr) / sp⌋ - 1).toNat = (⌊(seg - tr) / sp⌋).toNat - 1 := by omega
      constructor
      · rw [List.length_append, List.length_replicate, ihl, hstep, hn2]
        conv_rhs =>
          rw [show (⌊(seg - tr) / sp⌋).toNat = ((⌊(seg - tr) / sp⌋).toNat - 1) + 1 from by
                omega]
        ring
      · rw [ihr, hstep, hn2, Nat.cast_sub hn1]
        push_cast
        ring
    · rw [if_neg hle]
      have hfl : ⌊(seg - tr) / sp⌋ ≤ 0 := by
        have hlt : (seg - tr) / sp < 1 := (div_lt_one hsp0).mpr (by linarith)
        have := Int.floor_lt.mpr (by push_cast; exact hlt : (seg - tr) / sp < ((1:ℤ):ℝ))
        omega
      have h0 : (⌊(seg - tr) / sp⌋).toNat = 0 := Int.toNat_of_nonpos hfl
      simp [h0]

/-- addPoint on an active stroke, moved right by d with scatter count 1,
when the spacing threshold is reached within the segment: unfolds to the
first stamp plus the interval loop. -/
theorem addPoint_taken (fuel : ℕ) (e : BrushEngine) (d sp a p tx ty : ℝ)
    (hact : e.stroke.active = true) (hd : 0 < d)
    (hsp : max 1 (e.size * e.preset.dynamics.spacing) = sp)
    (ha : e.stroke.distanceAccum = a)
    (hcnt : e.preset.dynamics.scatterCount = 1)
    (hbr : sp - a ≤ d) :
    addPoint fuel e (e.stroke.lastX + d) e.stroke.lastY p tx ty =
      ({ e with
          stroke :=
            { lastX := e.stroke.lastX + d
              lastY := e.stroke.lastY
              dirX := 1
              dirY := 0
              distanceAccum :=
                d - (stampWhile 1 e.stroke.lastX e.stroke.lastY d 0 d sp p tx ty fuel
                  (sp - a)).2
              active := true } },
       ⟨e.stroke.lastX + d * ((sp - a) / d), e.stroke.lastY + 0 * ((sp - a) / d), p, tx, ty⟩ ::
         (stampWhile 1 e.stroke.lastX e.stroke.lastY d 0 d sp p tx ty fuel (sp - a)).1) := by
  simp only [addPoint]
  rw [if_neg (not_not_intro hact)]
  rw [show e.stroke.lastX + d - e.stroke.lastX = d from by ring,
      show e.stroke.lastY - e.stroke.lastY = (0:ℝ) from by ring]
  rw [show Real.sqrt (d * d + 0 * 0) = d from by
        rw [show d * d + 0 * 0 = d ^ 2 from by ring]; exact Real.sqrt_sq hd.le]
  rw [if_neg hd.ne']
  rw [hcnt, round_one, max_self, Int.toNat_one]
  rw [hsp, ha]
  rw [if_pos hbr]
  rw [div_self hd.ne', zero_div, List.replicate_one, List.singleton_append]

/-- addPoint on an active stroke, moved right by d, when the segment ends
before the spacing threshold: no stamps, the distance accumulates. -/
theorem addPoint_notTaken (fuel : ℕ) (e : BrushEngine) (d sp a p tx ty : ℝ)
    (hact : e.stroke.active = true) (hd : 0 < d)
    (hsp : max 1 (e.size * e.preset.dynamics.spacing) = sp)
    (ha : e.stroke.distanceAccum = a)
    (hcnt : e.preset.dynamics.scatterCount = 1)
    (hbr : ¬ sp - a ≤ d) :
    addPoint fuel e (e.stroke.lastX + d) e.stroke.lastY p tx ty =
      ({ e with
          stroke :=
            { lastX := e.stroke.lastX + d
              lastY := e.stroke.lastY
              dirX := 1
              dirY := 0
              distanceAccum := a + d
              active := true } },
       []) := by
  simp only [addPoint]
  rw [if_neg (not_not_intro hact)]
  rw [show e.stroke.lastX + d - e.stroke.lastX = d from by ring,
      show e.stroke.lastY - e.stroke.lastY = (0:ℝ) from by ring]
  rw [show Real.sqrt (d * d + 0 * 0) = d from by
        rw [show d * d + 0 * 0 = d ^ 2 from by ring]; exact Real.sqrt_sq hd.le]
  rw [if_neg hd.ne']
  rw [hcnt, round_one, max_self, Int.toNat_one]
  rw [hsp, ha]
  rw [if_neg hbr]
  rw [div_self hd.ne', zero_div]

/-- addPoint on an active stroke moved horizontally by d > 0 with scatter
count 1: the engine keeps everything but its stroke state, the new
accumulator is the distance left over after the placed intervals, and the
number of stamps is floor((accumulated + d) / spacingPx). -/
theorem addPoint_horizontal (fuel : ℕ) (e : BrushEngine) (d sp a p tx ty : ℝ)
    (hact : e.stroke.active = true) (hd : 0 < d)
    (hsp : max 1 (e.size * e.preset.dynamics.spacing) = sp)
    (ha : e.stroke.distanceAccum = a)
    (ha0 : 0 ≤ a) (ha1 : a < sp)
    (hcnt : e.preset.dynamics.scatterCount = 1)
    (hfuel : d ≤ (fuel : ℝ) * sp) :
    (addPoint fuel e (e.stroke.lastX + d) e.stroke.lastY p tx ty).1 =
      { e with
          stroke :=
            { lastX := e.stroke.lastX + d
              lastY := e.stroke.lastY
              dirX := 1
              dirY := 0
              distanceAccum := a + d - ((⌊(a + d) / sp⌋ : ℤ) : ℝ) * sp
              active := true } } ∧
    (addPoint fuel e (e.stroke.lastX + d) e.stroke.lastY p tx ty).2.length =
      (⌊(a + d) / sp⌋).toNat := by
  have hsp1 : (1:ℝ) ≤ sp := hsp ▸ le_max_left _ _
  have hsp0 : (0:ℝ) < sp := lt_of_lt_of_le one_pos hsp1
  by_cases hbr : sp - a ≤ d
  · rw [addPoint_taken fuel e d sp a p tx ty hact hd hsp ha hcnt hbr]
    have hwf : d - (sp - a) ≤ (fuel : ℝ) * sp := by linarith
    obtain ⟨hlen, hend⟩ :=
      stampWhile_spec 1 e.stroke.lastX e.stroke.lastY d 0 d sp p tx ty hsp1 fuel (sp - a) hwf
    have hfl1 : 1 ≤ ⌊(a + d) / sp⌋ := by
      apply Int.le_floor.mpr
      push_cast
      rw [le_div_iff₀ hsp0]
      linarith
    have hstep : ⌊(d - (sp - a)) / sp⌋ = ⌊(a + d) / sp⌋ - 1 := by
      rw [show (d - (sp - a)) / sp = (a + d) / sp - ((1:ℤ):ℝ) by
            push_cast; field_simp; ring]
      exact Int.floor_sub_int _ 1
    constructor
    · show ({ e with
          stroke :=
            { lastX := e.stroke.lastX + d
              lastY := e.stroke.lastY
              dirX := 1
              dirY := 0
              distanceAccum :=
                d - (stampWhile 1 e.stroke.lastX e.stroke.lastY d 0 d sp p tx ty fuel
                  (sp - a)).2
              active := true } } : BrushEngine) = _
      rw [hend, hstep]
      have hn1 : 1 ≤ (⌊(a + d) / sp⌋).toNat := by omega
      have hn2 : (⌊(a + d) / sp⌋ - 1).toNat = (⌊(a + d) / sp⌋).toNat - 1 := by omega
      rw [hn2, Nat.cast_sub hn1]
      have hcast : ((⌊(a + d) / sp⌋).toNat : ℝ) = ((⌊(a + d) / sp⌋ : ℤ) : ℝ) := by
        have : (0:ℤ) ≤ ⌊(a + d) / sp⌋ := by omega
        exact_mod_cast congrArg (fun z : ℤ => (z : ℝ)) (Int.toNat_of_nonneg this)
      congr 1
      congr 1
      rw [hcast]
      push_cast
      ring
    · show ((⟨e.stroke.lastX + d * ((sp - a) / d), e.stroke.lastY + 0 * ((sp - a) / d),
          p, tx, ty⟩ : Stamp) ::
          (stampWhile 1 e.stroke.lastX e.stroke.lastY d 0 d sp p tx ty fuel (sp - a)).1).length
          = _
      rw [List.length_cons, hlen, hstep]
      omega
  · rw [addPoint_notTaken fuel e d sp a p tx ty hact hd hsp ha hcnt hbr]
    have hfl0 : ⌊(a + d) / sp⌋ = 0 := by
      apply Int.floor_eq_zero_iff.mpr
      constructor
      · positivity
      · rw [div_lt_one hsp0]; linarith
    constructor
    · show ({ e with
          stroke :=
            { lastX := e.stroke.lastX + d
              lastY := e.stroke.lastY
              dirX := 1
              dirY := 0
              distanceAccum := a + d
              active := true } } : BrushEngine) = _
      rw [hfl0]
      norm_num
    · show ([] : List Stamp).length = _
      rw [hfl0]
      rfl

theorem evenPathPoints_eq_stepPoints (x0 y0 L : ℝ) (n : ℕ) :
    evenPathPoints x0 y0 L n = stepPoints x0 y0 (L / (n : ℝ)) n := rfl

theorem stepPoints_succ (x0 y0 d : ℝ) (k : ℕ) :
    stepPoints x0 y0 d (k + 1) = (x0 + d, y0) :: stepPoints (x0 + d) y0 d k := by
  simp only [stepPoints, List.range_succ_eq_map, List.map_cons, List.map_map]
  congr 1
  · norm_num
  · apply List.map_congr_left
    intro i _
    simp only [Function.comp_apply]
    rw [Prod.mk.injEq]
    refine ⟨?_, rfl⟩
    push_cast
    ring

/-- Feeding k equal horizontal steps of size d to an active engine places
floor((accumulated + k*d) / spacingPx) stamps in total. -/
theorem addPath_horizontal (p tx ty : ℝ) (fuel : ℕ) (d sp : ℝ) (hd : 0 < d)
    (hdf : d ≤ (fuel : ℝ) * sp) :
    ∀ (k : ℕ) (e : BrushEngine) (x0 y0 dx0 dy0 a : ℝ),
      e.stroke = ⟨x0, y0, dx0, dy0, a, true⟩ →
      0 ≤ a → a < sp →
      e.preset.dynamics.scatterCount = 1 →
      max 1 (e.size * e.preset.dynamics.spacing) = sp →
      (addPath fuel e p tx ty (stepPoints x0 y0 d k)).2.length =
        (⌊(a + (k : ℝ) * d) / sp⌋).toNat := by
  intro k
  induction k with
  | zero =>
    intro e x0 y0 dx0 dy0 a hstroke ha0 ha1 hcnt hsp
    have hsp0 : (0:ℝ) < sp := lt_of_lt_of_le one_pos (hsp ▸ le_max_left _ _)
    have hfl0 : ⌊(a + ((0:ℕ) : ℝ) * d) / sp⌋ = 0 := by
      apply Int.floor_eq_zero_iff.mpr
      constructor
      · push_cast
        positivity
      · push_cast
        rw [div_lt_one hsp0]
        linarith
    rw [hfl0]
    rfl
  | succ n ih =>
    intro e x0 y0 dx0 dy0 a hstroke ha0 ha1 hcnt hsp
    have hsp1 : (1:ℝ) ≤ sp := hsp ▸ le_max_left _ _
    have hsp0 : (0:ℝ) < sp := lt_of_lt_of_le one_pos hsp1
    have haX : e.stroke.lastX = x0 := by rw [hstroke]
    have haY : e.stroke.lastY = y0 := by rw [hstroke]
    have hact : e.stroke.active = true := by rw [hstroke]
    have ha : e.stroke.distanceAccum = a := by rw [hstroke]
    rw [stepPoints_succ]
    simp only [addPath]
    rw [show x0 + d = e.stroke.lastX + d from by rw [haX], ← haY]
    obtain ⟨hE, hL⟩ :=
      addPoint_horizontal fuel e d sp a p tx ty hact hd hsp ha ha0 ha1 hcnt hdf
    rw [List.length_append, hL, hE]
    have hJle : ((⌊(a + d) / sp⌋ : ℤ) : ℝ) ≤ (a + d) / sp := Int.floor_le _
    have hJgt : (a + d) / sp < ((⌊(a + d) / sp⌋ : ℤ) : ℝ) + 1 := Int.lt_floor_add_one _
    have hJmul : ((⌊(a + d) / sp⌋ : ℤ) : ℝ) * sp ≤ a + d := by
      have h2 := mul_le_mul_of_nonneg_right hJle hsp0.le
      rw [div_mul_cancel₀ _ hsp0.ne'] at h2
      exact h2
    have hJmul2 : a + d < (((⌊(a + d) / sp⌋ : ℤ) : ℝ) + 1) * sp := by
      have h2 := mul_lt_mul_of_pos_right hJgt hsp0
      rw [div_mul_cancel₀ _ hsp0.ne'] at h2
      exact h2
    have ha0n : (0:ℝ) ≤ a + d - ((⌊(a + d) / sp⌋ : ℤ) : ℝ) * sp := by linarith
    have ha1n : a + d - ((⌊(a + d) / sp⌋ : ℤ) : ℝ) * sp < sp := by nlinarith
    have hIH := ih
      { e with
          stroke :=
            { lastX := e.stroke.lastX + d
              lastY := e.stroke.lastY
              dirX := 1
              dirY := 0
              distanceAccum := a + d - ((⌊(a + d) / sp⌋ : ℤ) : ℝ) * sp
              active := true } }
      (e.stroke.lastX + d) e.stroke.lastY 1 0
      (a + d - ((⌊(a + d) / sp⌋ : ℤ) : ℝ) * sp)
      rfl ha0n ha1n hcnt hsp
    rw [hIH]
    have hshift : ⌊(a + d - ((⌊(a + d) / sp⌋ : ℤ) : ℝ) * sp + (n : ℝ) * d) / sp⌋ =
        ⌊(a + ((n : ℝ) + 1) * d) / sp⌋ - ⌊(a + d) / sp⌋ := by
      rw [show (a + d - ((⌊(a + d) / sp⌋ : ℤ) : ℝ) * sp + (n : ℝ) * d) / sp =
            (a + ((n : ℝ) + 1) * d) / sp - ((⌊(a + d) / sp⌋ : ℤ) : ℝ) from by
              field_simp
              ring]
      exact Int.floor_sub_int _ _
    have hJ0 : 0 ≤ ⌊(a + d) / sp⌋ :=
      Int.floor_nonneg.mpr (div_nonneg (by linarith) hsp0.le)
    have hB0 : 0 ≤ ⌊(a + d - ((⌊(a + d) / sp⌋ : ℤ) : ℝ) * sp + (n : ℝ) * d) / sp⌋ := by
      apply Int.floor_nonneg.mpr
      apply div_nonneg _ hsp0.le
      have hnd : (0:ℝ) ≤ (n : ℝ) * d := by positivity
      linarith
    rw [hshift] at hB0
    push_cast
    rw [hshift]
    omega

/-- C1: for a horizontal straight-line path of length L, brush size D and
spacing fraction S, scatter count 1, and a stroke begun at the path start,
one addPoint call over the whole path and 100 evenly-subdivided addPoint
calls both place exactly floor(L / max 1 (D*S)) stamps (so the two counts
agree within the claimed tolerance). -/
theorem spacing_invariance (pre : BrushPreset) (D L x0 y0 p tx ty : ℝ) (fuel : ℕ)
    (hL : 0 < L) (hcnt : pre.dynamics.scatterCount = 1)
    (hfuel : L ≤ (fuel : ℝ) * max 1 (D * pre.dynamics.spacing)) :
    (addPoint fuel ((beginStroke (setSize (mkEngine pre) D) x0 y0 p tx ty).1)
        (x0 + L) y0 p tx ty).2.length =
      (⌊L / max 1 (D * pre.dynamics.spacing)⌋).toNat ∧
    (addPath fuel ((beginStroke (setSize (mkEngine pre) D) x0 y0 p tx ty).1)
        p tx ty (evenPathPoints x0 y0 L 100)).2.length =
      (⌊L / max 1 (D * pre.dynamics.spacing)⌋).toNat := by
  have hsp1 : (1:ℝ) ≤ max 1 (D * pre.dynamics.spacing) := le_max_left _ _
  have hsp0 : (0:ℝ) < max 1 (D * pre.dynamics.spacing) := lt_of_lt_of_le one_pos hsp1
  constructor
  · have h1 := (addPoint_horizontal fuel
      ((beginStroke (setSize (mkEngine pre) D) x0 y0 p tx ty).1) L
      (max 1 (D * pre.dynamics.spacing)) 0 p tx ty rfl hL rfl rfl le_rfl hsp0 hcnt
      hfuel).2
    rw [zero_add] at h1
    exact h1
  · rw [evenPathPoints_eq_stepPoints]
    have hd : (0:ℝ) < L / ((100:ℕ) : ℝ) := by positivity
    have hdf : L / ((100:ℕ) : ℝ) ≤ (fuel : ℝ) * max 1 (D * pre.dynamics.spacing) := by
      have hle : L / ((100:ℕ) : ℝ) ≤ L := by
        push_cast
        linarith
      linarith
    have h2 := addPath_horizontal p tx ty fuel (L / ((100:ℕ) : ℝ))
      (max 1 (D * pre.dynamics.spacing)) hd hdf 100
      ((beginStroke (setSize (mkEngine pre) D) x0 y0 p tx ty).1) x0 y0 1 0 0
      rfl le_rfl hsp0 hcnt rfl
    rw [show (0:ℝ) + ((100:ℕ) : ℝ) * (L / ((100:ℕ) : ℝ)) = L from by
          rw [zero_add, mul_comm, div_mul_cancel₀ _ (by norm_num : ((100:ℕ) : ℝ) ≠ 0)]]
      at h2
    exact h2

theorem spacing_invariance_witness :
    ((0:ℝ) < 4 ∧
      (4:ℝ) ≤ ((4:ℕ) : ℝ) * max 1 ((10:ℝ) * c1Preset.dynamics.spacing)) ∧
    (addPoint 4 ((beginStroke (setSize (mkEngine c1Preset) 10) 0 0 1 0 0).1)
        ((0:ℝ) + 4) 0 1 0 0).2.length = 2 ∧
    (addPath 4 ((beginStroke (setSize (mkEngine c1Preset) 10) 0 0 1 0 0).1)
        1 0 0 (evenPathPoints 0 0 4 100)).2.length = 2 := by
  have hspv : max 1 ((10:ℝ) * c1Preset.dynamics.spacing) = 2 := by
    show max 1 ((10:ℝ) * (1/5)) = 2
    rw [show (10:ℝ) * (1/5) = 2 from by norm_num]
    exact max_eq_right (by norm_num)
  have hfu : (4:ℝ) ≤ ((4:ℕ) : ℝ) * max 1 ((10:ℝ) * c1Preset.dynamics.spacing) := by
    rw [hspv]
    norm_num
  have h := spacing_invariance c1Preset 10 4 0 0 1 0 0 4 (by norm_num) rfl hfu
  rw [hspv] at h
  have hfloor : (⌊(4:ℝ) / 2⌋).toNat = 2 := by
    rw [show ⌊(4:ℝ) / 2⌋ = 2 from by norm_num]
    rfl
  rw [hfloor] at h
  exact ⟨⟨by norm_num, hfu⟩, h.1, h.2⟩

end Pictaflux
